import Mathlib

set_option maxRecDepth 2000

/-!
Verification of the artifact lifecycle and rendering pipeline of
`gemini_bot.py` (GeminiDuck bot).

Strings are modelled as `List Char` (one entry per Unicode code point, matching
Python's `str` indexing and `len`).  Each definition below is a direct
transcription of the corresponding Python function; the source line numbers are
given in the doc comments.  Scanning functions that Python implements with
`re.sub` are transcribed as structural recursions over the character list with
an explicit skip counter (the counter replays "continue scanning after the end
of the previous match"), so that every definition is executable by kernel
reduction.
-/

/-- Backquote character (U+0060), written via its code point. -/
def btick : Char := Char.ofNat 96

/-- Single-quote character (U+0027), written via its code point. -/
def squote : Char := Char.ofNat 39

/-! ### Configuration constants (gemini_bot.py lines 41-43) -/

/-- `MAX_TEXT_RESPONSE = 500` — the short-answer threshold. -/
def MAX_TEXT_RESPONSE : Nat := 500

/-- `MAX_TOTAL_CHARS = 6000` — overall answer cap. -/
def MAX_TOTAL_CHARS : Nat := 6000

/-! ### ResponseHandler.process_response dispatch (lines 613-642) -/

/-- The three delivery modes of `ResponseHandler.process_response`. -/
inductive DeliveryMode where
  | CHUNKED
  | INLINE
  | OFFERED
deriving DecidableEq

/-- The dispatch decision of `ResponseHandler.process_response`
(lines 629-642): `if len(t) <= MAX_TEXT_RESPONSE and '\n' in t` send in
chunks; `elif len(t) <= 1000` send as one text message; `else` offer a
format choice. -/
def process_response_mode (response_text : List Char) : DeliveryMode :=
  if response_text.length ≤ MAX_TEXT_RESPONSE ∧ '\n' ∈ response_text then
    DeliveryMode.CHUNKED
  else if response_text.length ≤ 1000 then
    DeliveryMode.INLINE
  else
    DeliveryMode.OFFERED

/-- A concrete 700-character answer consisting of two lines. -/
def ex700two : List Char := List.replicate 350 'a' ++ '\n' :: List.replicate 349 'a'

/-- A concrete 700-character single-line answer. -/
def ex700one : List Char := List.replicate 700 'a'

/-- A concrete 5000-character answer. -/
def ex5000 : List Char := List.replicate 5000 'a'

/-! ### FileManager.cleanup_dir (lines 100-110) -/

/-- One directory entry as seen by `cleanup_dir`: a name, an mtime (seconds),
and whether `Path.is_file()` holds. -/
structure FSFile where
  name : List Char
  mtime : Int
  isFile : Bool
deriving DecidableEq

/-- `FileManager.cleanup_dir` (lines 100-110): for every regular file in the
directory whose age `now - mtime` exceeds `max_age_seconds`, unlink it.  The
result is the list of surviving entries (directories are never touched). -/
def cleanup_dir (now : Int) (directory : List FSFile) (max_age_seconds : Int) :
    List FSFile :=
  directory.filter (fun f => !(f.isFile && decide (max_age_seconds < now - f.mtime)))

/-! ### FileManager.cleanup_user_files (lines 112-124) -/

/-- A component of an on-disk path under the bot's base directory
(`/tmp/geminiduck/user_<id>/{temp,history}/<file>`). -/
inductive PathC where
  | user (id : Nat)
  | temp
  | history
  | file (name : List Char)
deriving DecidableEq

/-- Boolean path-prefix test (used to model which files live under a
directory subtree). -/
def pathStartsWith : List PathC → List PathC → Bool
  | [], _ => true
  | _ :: _, [] => false
  | a :: as, b :: bs => a == b && pathStartsWith as bs

/-- The working-area directory `user_<id>/temp` of a user. -/
def userTempDir (user_id : Nat) : List PathC := [PathC.user user_id, PathC.temp]

/-- The transcript directory `user_<id>/history` of a user. -/
def userHistoryDir (user_id : Nat) : List PathC := [PathC.user user_id, PathC.history]

/-- `FileManager.cleanup_user_files` (lines 112-124): `shutil.rmtree` on the
user's `temp` subtree followed by recreating the empty directory.  The
filesystem is modelled as the list of existing file paths; the sweep removes
exactly the paths below `user_<id>/temp`. -/
def cleanup_user_files (fs : List (List PathC)) (user_id : Nat) :
    List (List PathC) :=
  fs.filter (fun p => !(pathStartsWith (userTempDir user_id) p))

/-! ### PDFGenerator.create_pdf_from_markdown (lines 228-324) -/

/-- Outcome of the fallible steps of a PDF build: every step succeeds; or a
step before `pdf.output` raises (e.g. the `pdf.add_font` calls at lines
252-253 when the DejaVu font files are absent), so no PDF file is opened;
or `pdf.output` itself raises after opening the output file (e.g. disk
full), leaving a zero-byte or truncated PDF file on disk.  The surrounding
`try/except` (lines 231, 322-324) turns any exception into a `None` return
and performs no cleanup in either failure case. -/
inductive PdfBuildOutcome where
  | ok
  | raiseBeforeOutput
  | raiseDuringOutput
deriving DecidableEq

/-- Result of a PDF build: the returned value and the final contents of the
user's working area (file names). -/
structure PdfResult where
  ret : Option (List Char)
  tempFiles : List (List Char)
deriving DecidableEq

/-- `PDFGenerator.create_pdf_from_markdown` (lines 228-324), effect-level
model.  Step order as in the source: (1) `save_markdown` writes the
intermediate Markdown source file (line 235); (2) the PDF is assembled in
memory — an exception here is caught and `None` returned with no PDF file
on disk; (3) `pdf.output` writes the PDF file (line 313) — an exception
raised inside it after the file is opened is likewise caught and `None`
returned, but the zero-byte/truncated PDF file stays on disk; (4) on
success only, the intermediate Markdown file is unlinked (lines 316-317)
and the PDF path returned. -/
def create_pdf_from_markdown (tempFiles0 : List (List Char))
    (mdName pdfName : List Char) (outcome : PdfBuildOutcome) : PdfResult :=
  let fs1 := tempFiles0 ++ [mdName]
  match outcome with
  | PdfBuildOutcome.raiseBeforeOutput => { ret := none, tempFiles := fs1 }
  | PdfBuildOutcome.raiseDuringOutput => { ret := none, tempFiles := fs1 ++ [pdfName] }
  | PdfBuildOutcome.ok =>
      let fs2 := fs1 ++ [pdfName]
      let fs3 := fs2.filter (fun n => n != mdName)
      { ret := some pdfName, tempFiles := fs3 }

/-! ### str.replace and MarkdownProcessor.clean_markdown (lines 161-177) -/

/-- Python `str.replace(pat, rep)`, scanning left to right and replacing
non-overlapping occurrences.  The `Nat` argument is the number of characters
still to copy over unchanged because they were consumed by the previous
match (all call sites start it at `0`). -/
def replaceStrGo (pat rep : List Char) : Nat → List Char → List Char
  | _, [] => []
  | k + 1, _ :: rest => replaceStrGo pat rep k rest
  | 0, c :: rest =>
    if pat.isPrefixOf (c :: rest) then
      rep ++ replaceStrGo pat rep (pat.length - 1) rest
    else
      c :: replaceStrGo pat rep 0 rest

/-- Python `text.replace(pat, rep)` for a non-empty pattern. -/
def replaceStr (pat rep text : List Char) : List Char :=
  replaceStrGo pat rep 0 text

/-- `MarkdownProcessor.clean_markdown` (lines 161-177): normalise line
endings, then apply the replacement dict in insertion order —
`'`' → "'"` first, then `'```' → '```\n'`, then `'\t' → '    '`. -/
def clean_markdown (text : List Char) : List Char :=
  replaceStr ['\t'] [' ', ' ', ' ', ' ']
    (replaceStr [btick, btick, btick] [btick, btick, btick, '\n']
      (replaceStr [btick] [squote]
        (replaceStr ['\r'] ['\n']
          (replaceStr ['\r', '\n'] ['\n'] text))))

/-! ### PDFGenerator._wrap_text (lines 326-361) -/

/-- Python `str.split(sep)` for a one-character separator: splits at every
occurrence, keeping empty pieces (`''.split(' ') == ['']`,
`' '.split(' ') == ['', '']`). -/
def splitOnChar (sep : Char) : List Char → List (List Char)
  | [] => [[]]
  | c :: rest =>
    match splitOnChar sep rest with
    | [] => [[]]
    | w :: ws => if c = sep then [] :: w :: ws else (c :: w) :: ws

/-- Python `sep.join(words)` for a one-character separator. -/
def joinSep (sep : Char) : List (List Char) → List Char
  | [] => []
  | [w] => w
  | w :: v :: ws => w ++ sep :: joinSep sep (v :: ws)

/-- The slices `word[i:i+max_width]` for `i in range(0, len(word), max_width)`
(lines 347-348): the fixed-width fragments of a hard-split word. -/
def chunksOf (w : Nat) (l : List Char) : List (List Char) :=
  if l = [] then []
  else if w = 0 then []
  else l.take w :: chunksOf w (l.drop w)
termination_by l.length
decreasing_by
  simp only [List.length_drop]
  rename_i h1 h2
  have : l.length ≠ 0 := fun h => h1 (List.eq_nil_of_length_eq_zero h)
  omega

/-- The loop state of `_wrap_text`: accumulated output lines, the words packed
onto the line under construction, and `current_length` (the running sum of
their lengths, maintained by the source alongside the list). -/
structure WrapState where
  lines : List (List Char)
  current_line : List (List Char)
  current_length : Nat

/-- One iteration of the inner `for word in words` loop of `_wrap_text`
(lines 336-355): a word longer than `max_width` flushes the current line and
is hard-split into fixed-width fragments; otherwise the word is packed onto
the current line unless `current_length + word_length + len(current_line)`
would exceed `max_width`, in which case the line is flushed first. -/
def wrapWord (max_width : Nat) (s : WrapState) (word : List Char) : WrapState :=
  if word.length > max_width then
    let s1 := if s.current_line = [] then s
      else ⟨s.lines ++ [joinSep ' ' s.current_line], [], 0⟩
    ⟨s1.lines ++ chunksOf max_width word, s1.current_line, s1.current_length⟩
  else if s.current_length + word.length + s.current_line.length > max_width then
    ⟨s.lines ++ [joinSep ' ' s.current_line], [word], word.length⟩
  else
    ⟨s.lines, s.current_line ++ [word], s.current_length + word.length⟩

/-- One iteration of the outer `for paragraph in text.split('\n')` loop of
`_wrap_text` (lines 331-359): split the paragraph on spaces, run the packing
loop, and flush a non-empty final line. -/
def wrapParagraph (max_width : Nat) (lines0 : List (List Char))
    (paragraph : List Char) : List (List Char) :=
  let words := splitOnChar ' ' paragraph
  let s := words.foldl (wrapWord max_width) ⟨lines0, [], 0⟩
  if s.current_line = [] then s.lines else s.lines ++ [joinSep ' ' s.current_line]

/-- `PDFGenerator._wrap_text` (lines 326-361). -/
def wrap_text (text : List Char) (max_width : Nat) : List (List Char) :=
  (splitOnChar '\n' text).foldl (wrapParagraph max_width) []

/-- All characters except spaces, in order. -/
def dropSpaces (l : List Char) : List Char := l.filter (fun c => c != ' ')

/-- All characters except spaces and newlines, in order: the concatenation of
the text's words. -/
def dropWhitespace (l : List Char) : List Char :=
  l.filter (fun c => c != ' ' && c != '\n')

/-! ### ResponseHandler._prepare_text and _send_text_chunks (lines 658-680) -/

/-- `ResponseHandler._prepare_text` (lines 658-662): escape `_`, `*` and
backquote with a backslash, by three successive `str.replace` calls. -/
def prepare_text (text : List Char) : List Char :=
  replaceStr [btick] ['\\', btick]
    (replaceStr ['*'] ['\\', '*']
      (replaceStr ['_'] ['\\', '_'] text))

/-- Character-wise Markdown escaping — the specified effect of
`_prepare_text`: every `_`, `*` and backquote is preceded by a backslash. -/
def escapeMarkdownChar (c : Char) : List Char :=
  if c = '_' ∨ c = '*' ∨ c = btick then ['\\', c] else [c]

/-- A text with every `_`, `*` and backquote backslash-escaped. -/
def escapeMarkdown (l : List Char) : List Char := l.flatMap escapeMarkdownChar

/-- `ResponseHandler._send_text_chunks` (lines 664-680): split the text into
1000-character windows, keep at most 5, and escape each window with
`_prepare_text` before handing it to the transport. -/
def send_text_chunks (text : List Char) : List (List Char) :=
  ((chunksOf 1000 text).take 5).map prepare_text

/-- The sequence of message texts `process_response` (lines 629-642) hands to
the transport for a given answer: the escaped chunks on the CHUNKED path, the
single escaped message on the INLINE path, and no answer text on the OFFERED
path (only a format-choice menu is sent there). -/
def process_response_messages (response_text : List Char) : List (List Char) :=
  if response_text.length ≤ MAX_TEXT_RESPONSE ∧ '\n' ∈ response_text then
    send_text_chunks response_text
  else if response_text.length ≤ 1000 then
    [prepare_text response_text]
  else
    []

/-! ### FileManager.create_temp_file (lines 77-84) -/

/-- The wall-clock instant captured by `datetime.datetime.now()` at the moment
of a `create_temp_file` call, at the resolution `strftime` prints. -/
structure Timestamp where
  year : Nat
  month : Nat
  day : Nat
  hour : Nat
  minute : Nat
  second : Nat
  microsecond : Nat
deriving DecidableEq

/-- The decimal digit character for `d < 10`. -/
def digitChar (d : Nat) : Char := Char.ofNat (48 + d)

/-- The decimal digits of a natural number, most significant first
(`natDigits 0 = ['0']`). -/
def natDigits (n : Nat) : List Char :=
  if n < 10 then [digitChar n] else natDigits (n / 10) ++ [digitChar (n % 10)]
termination_by n
decreasing_by exact Nat.div_lt_self (by omega) (by omega)

/-- Zero-padded fixed-width decimal rendering, as printed by the `%Y`, `%m`,
`%d`, `%H`, `%M`, `%S` and `%f` directives of `strftime`. -/
def padNum (w n : Nat) : List Char :=
  List.replicate (w - (natDigits n).length) '0' ++ natDigits n

/-- `now.strftime('%Y%m%d_%H%M%S_%f')` (line 80): the timestamp part of a
temporary file name, with microsecond resolution. -/
def strftime_ts (t : Timestamp) : List Char :=
  padNum 4 t.year ++ (padNum 2 t.month ++ (padNum 2 t.day ++ ('_' ::
    (padNum 2 t.hour ++ (padNum 2 t.minute ++ (padNum 2 t.second ++ ('_' ::
      padNum 6 t.microsecond)))))))

/-- In-range side conditions on a wall-clock timestamp (every field of a real
`datetime` satisfies much tighter bounds). -/
def TsValid (t : Timestamp) : Prop :=
  t.year < 10000 ∧ t.month < 100 ∧ t.day < 100 ∧ t.hour < 100 ∧
    t.minute < 100 ∧ t.second < 100 ∧ t.microsecond < 1000000

instance (t : Timestamp) : Decidable (TsValid t) := by
  unfold TsValid; infer_instance

/-- `FileManager.create_temp_file` (lines 77-84): the returned path is
`<temp_dir>/<prefix><timestamp>[.<extension>]`, where the timestamp is the
`strftime` rendering of the current instant.  The path is a pure function of
the user id, the prefix/extension arguments and the captured instant —
nothing else enters the file name. -/
def create_temp_file (user_id : Nat) (pre ext : List Char) (now : Timestamp) :
    List PathC :=
  PathC.user user_id :: PathC.temp ::
    [PathC.file (pre ++ strftime_ts now ++ (if ext.isEmpty then [] else '.' :: ext))]

/-- The paths returned by a sequence of `create_temp_file` calls for one user,
one call per captured timestamp. -/
def callPaths (user_id : Nat) (pre ext : List Char) (stamps : List Timestamp) :
    List (List PathC) :=
  stamps.map (create_temp_file user_id pre ext)

/-- A concrete instant. -/
def ts2025 : Timestamp := ⟨2025, 1, 1, 0, 0, 0, 0⟩

/-- The same instant, one microsecond later. -/
def ts2025b : Timestamp := ⟨2025, 1, 1, 0, 0, 0, 1⟩

/-! ### MarkdownProcessor.markdown_to_plain_text (lines 198-221)

The ten `re.sub` rules (flags `re.MULTILINE | re.DOTALL`) are transcribed one
scanner per rule.  Each scanner walks the text once; a `Nat` skip counter
replays "resume scanning after the end of the previous match", and the
`Bool` flag of the two `^`-anchored rules tracks whether the current position
is a line start in the text being scanned. -/

/-- Python's `\s` on the characters that occur in chat text (ASCII
whitespace). -/
def isPySpace (c : Char) : Bool :=
  c == ' ' || c == '\t' || c == '\n' || c == '\r' || c == '\x0B' || c == '\x0C'

/-- Python's `\d` (ASCII digits). -/
def isDigitChar (c : Char) : Bool := '0' ≤ c && c ≤ '9'

/-- Rule 1, `'#+\s*' → ''`: every run of `#` together with the following
whitespace run is deleted. -/
def stripHeadingsGo : Nat → List Char → List Char
  | _, [] => []
  | k + 1, _ :: rest => stripHeadingsGo k rest
  | 0, c :: rest =>
    if c = '#' then
      stripHeadingsGo ((rest.takeWhile (fun x => x == '#')).length +
        ((rest.dropWhile (fun x => x == '#')).takeWhile isPySpace).length) rest
    else c :: stripHeadingsGo 0 rest

/-- Split at the first occurrence of `**`: `some (before, after)` with
`l = before ++ '*' :: '*' :: after`. -/
def splitAtDoubleStar : List Char → Option (List Char × List Char)
  | [] => none
  | c :: rest =>
    if c = '*' ∧ rest.head? = some '*' then some ([], rest.tail)
    else (splitAtDoubleStar rest).map (fun p => (c :: p.1, p.2))

/-- Split at the first occurrence of a single character `t`:
`some (before, after)` with `l = before ++ t :: after`. -/
def splitAtChar (t : Char) : List Char → Option (List Char × List Char)
  | [] => none
  | c :: rest =>
    if c = t then some ([], rest)
    else (splitAtChar t rest).map (fun p => (c :: p.1, p.2))

/-- Split at the first occurrence of the two-character sequence `a b`. -/
def splitAtSeq2 (a b : Char) : List Char → Option (List Char × List Char)
  | [] => none
  | c :: rest =>
    if c = a ∧ rest.head? = some b then some ([], rest.tail)
    else (splitAtSeq2 a b rest).map (fun p => (c :: p.1, p.2))

/-- Split at the first occurrence of a triple backquote. -/
def splitAtTriple : List Char → Option (List Char × List Char)
  | [] => none
  | c :: rest =>
    if c = btick ∧ rest.take 2 = [btick, btick] then some ([], rest.drop 2)
    else (splitAtTriple rest).map (fun p => (c :: p.1, p.2))

/-- Rule 2, `'\*\*(.*?)\*\*' → '\1'` (DOTALL): a lazily matched `**` pair is
replaced by its content. -/
def replaceBoldGo : Nat → List Char → List Char
  | _, [] => []
  | k + 1, _ :: rest => replaceBoldGo k rest
  | 0, c :: rest =>
    if c = '*' ∧ rest.head? = some '*' then
      match splitAtDoubleStar rest.tail with
      | some p => p.1 ++ replaceBoldGo (p.1.length + 3) rest
      | none => c :: replaceBoldGo 0 rest
    else c :: replaceBoldGo 0 rest

/-- Rules 3 and 4, `'\*(.*?)\*' → '\1'` and the same with a backquote
(DOTALL): a lazily matched single-character delimiter pair is replaced by its
content. -/
def replaceDelimGo (t : Char) : Nat → List Char → List Char
  | _, [] => []
  | k + 1, _ :: rest => replaceDelimGo t k rest
  | 0, c :: rest =>
    if c = t then
      match splitAtChar t rest with
      | some p => p.1 ++ replaceDelimGo t (p.1.length + 1) rest
      | none => c :: replaceDelimGo t 0 rest
    else c :: replaceDelimGo t 0 rest

/-- Rule 5, ``` '```.*?\n(.*?)```' → '\1' ``` (DOTALL): an opening fence, the
lazily matched fence line up to the first newline, then the content up to the
first closing fence. -/
def replaceFenceGo : Nat → List Char → List Char
  | _, [] => []
  | k + 1, _ :: rest => replaceFenceGo k rest
  | 0, c :: rest =>
    if c = btick ∧ rest.take 2 = [btick, btick] then
      match splitAtChar '\n' (rest.drop 2) with
      | some p =>
        match splitAtTriple p.2 with
        | some q => q.1 ++ replaceFenceGo (p.1.length + q.1.length + 6) rest
        | none => c :: replaceFenceGo 0 rest
      | none => c :: replaceFenceGo 0 rest
    else c :: replaceFenceGo 0 rest

/-- Rule 6, `'!\[.*?\]\(.*?\)' → ''`: an image is deleted. -/
def removeImagesGo : Nat → List Char → List Char
  | _, [] => []
  | k + 1, _ :: rest => removeImagesGo k rest
  | 0, c :: rest =>
    if c = '!' ∧ rest.head? = some '[' then
      match splitAtSeq2 ']' '(' rest.tail with
      | some p =>
        match splitAtChar ')' p.2 with
        | some q => removeImagesGo (p.1.length + q.1.length + 4) rest
        | none => c :: removeImagesGo 0 rest
      | none => c :: removeImagesGo 0 rest
    else c :: removeImagesGo 0 rest

/-- Rule 7, `'\[(.*?)\]\(.*?\)' → '\1'`: a link is replaced by its label. -/
def replaceLinksGo : Nat → List Char → List Char
  | _, [] => []
  | k + 1, _ :: rest => replaceLinksGo k rest
  | 0, c :: rest =>
    if c = '[' then
      match splitAtSeq2 ']' '(' rest with
      | some p =>
        match splitAtChar ')' p.2 with
        | some q => p.1 ++ replaceLinksGo (p.1.length + q.1.length + 3) rest
        | none => c :: replaceLinksGo 0 rest
      | none => c :: replaceLinksGo 0 rest
    else c :: replaceLinksGo 0 rest

/-- Match of `^\s*<mark>\s*` at the start of `l`: the total number of
characters consumed, if the maximal whitespace run is followed by `mark`. -/
def tryBulletLen (mark : Char) (l : List Char) : Option Nat :=
  match l.dropWhile isPySpace with
  | c :: rest =>
    if c = mark then
      some ((l.takeWhile isPySpace).length + 1 + (rest.takeWhile isPySpace).length)
    else none
  | [] => none

/-- Rules 8 and 9, `'^\s*-\s*' → '• '` and `'^\s*\*\s*' → '• '` (MULTILINE):
a list marker at a line start becomes a bullet glyph.  The `Bool` records
whether the current scan position is a line start. -/
def subBulletGo (mark : Char) : Nat → Bool → List Char → List Char
  | _, _, [] => []
  | k + 1, _, x :: rest => subBulletGo mark k (x == '\n') rest
  | 0, bol, c :: rest =>
    if bol then
      match tryBulletLen mark (c :: rest) with
      | some n => '•' :: ' ' :: subBulletGo mark (n - 1) (c == '\n') rest
      | none => c :: subBulletGo mark 0 (c == '\n') rest
    else c :: subBulletGo mark 0 (c == '\n') rest

/-- Match of `^\s*\d+\.\s*` at the start of `l`: the total number of
characters consumed, if the maximal whitespace run is followed by a digit
run and a dot. -/
def tryOrderedLen (l : List Char) : Option Nat :=
  let t := l.dropWhile isPySpace
  let ds := t.takeWhile isDigitChar
  if ds.isEmpty then none
  else
    match t.drop ds.length with
    | c :: rest =>
      if c = '.' then
        some ((l.takeWhile isPySpace).length + ds.length + 1 +
          (rest.takeWhile isPySpace).length)
      else none
    | [] => none

/-- Rule 10, `'^\s*\d+\.\s*' → ''` (MULTILINE): ordered-list numbering at a
line start is deleted. -/
def subOrderedGo : Nat → Bool → List Char → List Char
  | _, _, [] => []
  | k + 1, _, x :: rest => subOrderedGo k (x == '\n') rest
  | 0, bol, c :: rest =>
    if bol then
      match tryOrderedLen (c :: rest) with
      | some n => subOrderedGo (n - 1) (c == '\n') rest
      | none => c :: subOrderedGo 0 (c == '\n') rest
    else c :: subOrderedGo 0 (c == '\n') rest

/-- `MarkdownProcessor.markdown_to_plain_text` (lines 198-221): the ten
substitution rules applied in source order — headings, bold, italic, inline
code (generic backquote pair), fenced code blocks, images, links, dash
bullets, star bullets, ordered-list numbering. -/
def markdown_to_plain_text (md_text : List Char) : List Char :=
  subOrderedGo 0 true
    (subBulletGo '*' 0 true
      (subBulletGo '-' 0 true
        (replaceLinksGo 0
          (removeImagesGo 0
            (replaceFenceGo 0
              (replaceDelimGo btick 0
                (replaceDelimGo '*' 0
                  (replaceBoldGo 0
                    (stripHeadingsGo 0 md_text)))))))))

/-- Modelled from the spec: the same ten rules, but with the fenced-code rule
applied *before* the generic inline-backquote rule, as §4.2 of the
specification claims the pipeline is ordered ("code fences must be stripped
before generic backtick stripping to avoid corrupting fence boundaries").
The source applies them in the opposite order. -/
def markdown_to_plain_text_fenceFirst (md_text : List Char) : List Char :=
  subOrderedGo 0 true
    (subBulletGo '*' 0 true
      (subBulletGo '-' 0 true
        (replaceLinksGo 0
          (removeImagesGo 0
            (replaceDelimGo btick 0
              (replaceFenceGo 0
                (replaceDelimGo '*' 0
                  (replaceBoldGo 0
                    (stripHeadingsGo 0 md_text)))))))))

/-! ## Helper lemmas -/

theorem pathStartsWith_cons (a : PathC) (as p : List PathC) :
    pathStartsWith (a :: as) p = true ↔ ∃ t, p = a :: t ∧ pathStartsWith as t = true := by
  cases p with
  | nil => simp [pathStartsWith]
  | cons x rest =>
    simp only [pathStartsWith, Bool.and_eq_true, beq_iff_eq]
    constructor
    · rintro ⟨rfl, h⟩; exact ⟨rest, rfl, h⟩
    · rintro ⟨t, ht, h⟩
      obtain ⟨rfl, rfl⟩ : x = a ∧ rest = t := by
        constructor <;> [exact (List.cons.injEq _ _ _ _ ▸ ht).1;
          exact (List.cons.injEq _ _ _ _ ▸ ht).2]
      exact ⟨rfl, h⟩

theorem cleanup_user_files_frame (fs : List (List PathC)) (user_id : Nat)
    (p : List PathC) (h : pathStartsWith (userTempDir user_id) p = false) :
    p ∈ cleanup_user_files fs user_id ↔ p ∈ fs := by
  unfold cleanup_user_files
  rw [List.mem_filter]
  simp [h]

/-! ## Claims -/

/-- C1 (amended): the dispatch rules of `process_response`, in their source
order — an answer of length at most the short threshold (500) containing a
newline is CHUNKED; at most the short threshold without a newline is INLINE;
otherwise at most the medium threshold (1000) is INLINE; otherwise OFFERED.
Consequently a 700-character answer is INLINE whether or not it contains a
newline, and a 5000-character answer is OFFERED. -/
theorem C1_dispatch_rules (text : List Char) :
    (text.length ≤ 500 → '\n' ∈ text →
      process_response_mode text = DeliveryMode.CHUNKED) ∧
    (text.length ≤ 500 → '\n' ∉ text →
      process_response_mode text = DeliveryMode.INLINE) ∧
    (500 < text.length → text.length ≤ 1000 →
      process_response_mode text = DeliveryMode.INLINE) ∧
    (1000 < text.length → process_response_mode text = DeliveryMode.OFFERED) := by
  unfold process_response_mode MAX_TEXT_RESPONSE
  refine ⟨fun h1 h2 => ?_, fun h1 h2 => ?_, fun h1 h2 => ?_, fun h1 => ?_⟩
  · rw [if_pos ⟨h1, h2⟩]
  · rw [if_neg (fun hc => h2 hc.2), if_pos (by omega)]
  · rw [if_neg (fun hc => absurd hc.1 (by omega)), if_pos h2]
  · rw [if_neg (fun hc => absurd hc.1 (by omega)), if_neg (by omega)]

/-- C1 counterexample: the claim says a 700-character two-line answer is
delivered CHUNKED; on the code it is not (700 exceeds the short threshold
500, so the newline is never consulted and the answer is INLINE). -/
theorem C1_counterexample :
    ¬ process_response_mode ex700two = DeliveryMode.CHUNKED := by
  have hlen : ex700two.length = 700 := by
    simp only [ex700two, List.length_append, List.length_cons, List.length_replicate]
  unfold process_response_mode MAX_TEXT_RESPONSE
  rw [if_neg (fun hc => by omega), if_pos (by omega)]
  simp

/-- C1 witness: the amended rules applied to the three concrete profiles. -/
theorem C1_dispatch_rules_witness :
    process_response_mode ex700one = DeliveryMode.INLINE ∧
    process_response_mode ex700two = DeliveryMode.INLINE ∧
    process_response_mode ex5000 = DeliveryMode.OFFERED :=
  ⟨(C1_dispatch_rules ex700one).2.2.1
      (by simp only [ex700one, List.length_replicate]; omega)
      (by simp only [ex700one, List.length_replicate]; omega),
   (C1_dispatch_rules ex700two).2.2.1
      (by simp only [ex700two, List.length_append, List.length_cons,
            List.length_replicate]; omega)
      (by simp only [ex700two, List.length_append, List.length_cons,
            List.length_replicate]; omega),
   (C1_dispatch_rules ex5000).2.2.2
      (by simp only [ex5000, List.length_replicate]; omega)⟩

/-- C5: the working-area sweep never deletes a file of age strictly less than
the maximum age, and deletes every regular file whose age exceeds it. -/
theorem C5_cleanup_dir_spec (now max_age_seconds : Int) (files : List FSFile)
    (f : FSFile) (hf : f ∈ files) :
    (now - f.mtime < max_age_seconds →
      f ∈ cleanup_dir now files max_age_seconds) ∧
    (f.isFile = true → max_age_seconds < now - f.mtime →
      f ∉ cleanup_dir now files max_age_seconds) := by
  constructor
  · intro h
    refine List.mem_filter.mpr ⟨hf, ?_⟩
    have : ¬ max_age_seconds < now - f.mtime := by omega
    simp [this]
  · intro hfile h hmem
    have hpred := (List.mem_filter.mp hmem).2
    simp [hfile, h] at hpred

/-- C5 witness: with a one-hour (3600 s) max-age, a file created at time 0
survives a sweep at 1800 s (age 30 min) and is gone after a sweep at
5400 s (age 90 min). -/
theorem C5_cleanup_dir_witness :
    ((1800 : Int) - 0 < 3600 ∧
      (⟨['a'], 0, true⟩ : FSFile) ∈ cleanup_dir 1800 [⟨['a'], 0, true⟩] 3600) ∧
    ((3600 : Int) < 5400 - 0 ∧
      (⟨['a'], 0, true⟩ : FSFile) ∉ cleanup_dir 5400 [⟨['a'], 0, true⟩] 3600) :=
  ⟨⟨by decide, (C5_cleanup_dir_spec 1800 3600 _ _ (by decide)).1 (by decide)⟩,
   ⟨by decide, (C5_cleanup_dir_spec 5400 3600 _ _ (by decide)).2 rfl (by decide)⟩⟩

/-- C6: a "clear" request deletes every file under the requesting user's
working area (`temp` subtree) and leaves the user's transcript area
(`history` subtree) and every other user's files untouched. -/
theorem C6_cleanup_user_files_spec (fs : List (List PathC)) (user_id : Nat) :
    (∀ p ∈ fs, pathStartsWith (userTempDir user_id) p = true →
      p ∉ cleanup_user_files fs user_id) ∧
    (∀ p, pathStartsWith (userHistoryDir user_id) p = true →
      (p ∈ cleanup_user_files fs user_id ↔ p ∈ fs)) ∧
    (∀ v p, v ≠ user_id → pathStartsWith [PathC.user v] p = true →
      (p ∈ cleanup_user_files fs user_id ↔ p ∈ fs)) := by
  refine ⟨fun p _ hsw hmem => ?_, fun p hsw => ?_, fun v p hv hsw => ?_⟩
  · have hpred := (List.mem_filter.mp hmem).2
    simp [hsw] at hpred
  · obtain ⟨t, rfl, ht⟩ := (pathStartsWith_cons _ _ _).mp hsw
    obtain ⟨t', rfl, _⟩ := (pathStartsWith_cons _ _ _).mp ht
    refine cleanup_user_files_frame _ _ _ ?_
    simp [userTempDir, pathStartsWith]
  · obtain ⟨t, rfl, _⟩ := (pathStartsWith_cons _ _ _).mp hsw
    refine cleanup_user_files_frame _ _ _ ?_
    simp [userTempDir, pathStartsWith]
    intro hc
    exact absurd (PathC.user.injEq _ _ ▸ hc) (Ne.symm hv)

/-- C6 witness: user 1's working-area file is gone after the clear, while
user 1's transcript file and user 2's working-area file survive. -/
theorem C6_cleanup_user_files_witness :
    ([PathC.user 1, PathC.temp, PathC.file ['f']] ∉
      cleanup_user_files
        [[PathC.user 1, PathC.temp, PathC.file ['f']],
         [PathC.user 1, PathC.history, PathC.file ['h']],
         [PathC.user 2, PathC.temp, PathC.file ['g']]] 1) ∧
    ([PathC.user 1, PathC.history, PathC.file ['h']] ∈
      cleanup_user_files
        [[PathC.user 1, PathC.temp, PathC.file ['f']],
         [PathC.user 1, PathC.history, PathC.file ['h']],
         [PathC.user 2, PathC.temp, PathC.file ['g']]] 1) ∧
    ([PathC.user 2, PathC.temp, PathC.file ['g']] ∈
      cleanup_user_files
        [[PathC.user 1, PathC.temp, PathC.file ['f']],
         [PathC.user 1, PathC.history, PathC.file ['h']],
         [PathC.user 2, PathC.temp, PathC.file ['g']]] 1) :=
  ⟨(C6_cleanup_user_files_spec _ 1).1 _ (by decide) (by decide),
   ((C6_cleanup_user_files_spec _ 1).2.1 _ (by decide)).mpr (by decide),
   ((C6_cleanup_user_files_spec _ 1).2.2 2 _ (by decide) (by decide)).mpr (by decide)⟩

/-- C7 (amended): a failed PDF build (a `None` return) always leaves the
intermediate Markdown source file written at the start of the build in the
user's working area — it is unlinked only on the success path.  Moreover,
only a failure *before* `pdf.output` leaves no PDF file; a failure inside
`pdf.output` after the output file is opened additionally leaves a
zero-byte/truncated PDF file on disk, so neither half of the
no-partial-artifact property holds. -/
theorem C7_failed_build_state (tempFiles0 : List (List Char))
    (mdName pdfName : List Char) (outcome : PdfBuildOutcome)
    (h : (create_pdf_from_markdown tempFiles0 mdName pdfName outcome).ret = none) :
    mdName ∈ (create_pdf_from_markdown tempFiles0 mdName pdfName outcome).tempFiles ∧
    (outcome = PdfBuildOutcome.raiseBeforeOutput →
      (create_pdf_from_markdown tempFiles0 mdName pdfName outcome).tempFiles =
        tempFiles0 ++ [mdName]) ∧
    (outcome = PdfBuildOutcome.raiseDuringOutput →
      (create_pdf_from_markdown tempFiles0 mdName pdfName outcome).tempFiles =
        (tempFiles0 ++ [mdName]) ++ [pdfName]) := by
  cases outcome with
  | raiseBeforeOutput =>
    refine ⟨?_, fun _ => rfl, fun hc => absurd hc (by decide)⟩
    simp [create_pdf_from_markdown]
  | raiseDuringOutput =>
    refine ⟨?_, fun hc => absurd hc (by decide), fun _ => rfl⟩
    simp [create_pdf_from_markdown]
  | ok => simp [create_pdf_from_markdown] at h

/-- C7 counterexample: a failed build violates both halves of the claim —
a build that raises before `pdf.output` returns `None` yet the Markdown
source file is still present (leftover intermediate file), and a build
whose `pdf.output` raises after opening the output file returns `None` yet
the truncated PDF file is still present (partial output file). -/
theorem C7_counterexample :
    ¬ ((create_pdf_from_markdown [] ("md_source".data) ("out_pdf".data)
          PdfBuildOutcome.raiseBeforeOutput).ret = none →
        ("md_source".data) ∉
          (create_pdf_from_markdown [] ("md_source".data) ("out_pdf".data)
            PdfBuildOutcome.raiseBeforeOutput).tempFiles) ∧
    ¬ ((create_pdf_from_markdown [] ("md_source".data) ("out_pdf".data)
          PdfBuildOutcome.raiseDuringOutput).ret = none →
        ("out_pdf".data) ∉
          (create_pdf_from_markdown [] ("md_source".data) ("out_pdf".data)
            PdfBuildOutcome.raiseDuringOutput).tempFiles) := by decide

/-- C7 witness: the amended statement at the concrete build that fails
inside `pdf.output`. -/
theorem C7_failed_build_state_witness :
    (create_pdf_from_markdown [] ("md_source".data) ("out_pdf".data)
        PdfBuildOutcome.raiseDuringOutput).ret = none ∧
    ("md_source".data) ∈ (create_pdf_from_markdown [] ("md_source".data)
        ("out_pdf".data) PdfBuildOutcome.raiseDuringOutput).tempFiles ∧
    (create_pdf_from_markdown [] ("md_source".data) ("out_pdf".data)
        PdfBuildOutcome.raiseDuringOutput).tempFiles =
      ([] ++ [("md_source".data)]) ++ [("out_pdf".data)] :=
  ⟨by decide, (C7_failed_build_state [] _ _ _ (by decide)).1,
   (C7_failed_build_state [] _ _ _ (by decide)).2.2 rfl⟩

/-- C4: evaluation of `clean_markdown` at the failing input.  Because the
replacement dict is applied in insertion order, every backquote has already
become a plain quote before the fence rule is consulted, so the documented
`'```' → '```\n'` entry never fires: a fenced region produces no line break
at all in the output. -/
theorem C4_no_fence_line_break :
    clean_markdown ("```x```".data) =
      [squote, squote, squote, 'x', squote, squote, squote] ∧
    '\n' ∉ clean_markdown ("```x```".data) := by decide

/-! ## Lemmas about `str.replace` -/

theorem mem_replaceStrGo (pat rep : List Char) (c : Char) :
    ∀ (k : Nat) (l : List Char), c ∈ replaceStrGo pat rep k l → c ∈ l ∨ c ∈ rep := by
  intro k l
  induction l generalizing k with
  | nil =>
    intro h
    simp only [replaceStrGo] at h
    cases h
  | cons a rest ih =>
    intro h
    cases k with
    | succ k =>
      simp only [replaceStrGo] at h
      rcases ih k h with h' | h'
      · exact Or.inl (List.mem_cons_of_mem a h')
      · exact Or.inr h'
    | zero =>
      simp only [replaceStrGo] at h
      by_cases hpre : pat.isPrefixOf (a :: rest) = true
      · rw [if_pos hpre] at h
        rcases List.mem_append.mp h with h' | h'
        · exact Or.inr h'
        · rcases ih _ h' with h'' | h''
          · exact Or.inl (List.mem_cons_of_mem a h'')
          · exact Or.inr h''
      · rw [if_neg hpre] at h
        rcases List.mem_cons.mp h with rfl | h'
        · exact Or.inl (List.mem_cons_self _ _)
        · rcases ih _ h' with h'' | h''
          · exact Or.inl (List.mem_cons_of_mem a h'')
          · exact Or.inr h''

theorem not_mem_replaceStr (pat rep l : List Char) (c : Char)
    (h1 : c ∉ l) (h2 : c ∉ rep) : c ∉ replaceStr pat rep l := fun hm =>
  (mem_replaceStrGo pat rep c 0 l hm).elim h1 h2

theorem not_mem_replaceStr_single (p : Char) (rep : List Char)
    (hrep : p ∉ rep) : ∀ l, p ∉ replaceStr [p] rep l := by
  intro l
  unfold replaceStr
  induction l with
  | nil => simp [replaceStrGo]
  | cons a rest ih =>
    simp only [replaceStrGo]
    by_cases ha : a = p
    · subst ha
      have hpre : [a].isPrefixOf (a :: rest) = true := by
        simp [List.isPrefixOf]
      rw [if_pos hpre]
      intro hm
      rcases List.mem_append.mp hm with h' | h'
      · exact hrep h'
      · exact ih h'
    · have hpre : ¬ ([p].isPrefixOf (a :: rest) = true) := by
        simp [List.isPrefixOf]
        exact fun h => absurd h.symm ha
      rw [if_neg hpre]
      intro hm
      rcases List.mem_cons.mp hm with h' | h'
      · exact ha h'.symm
      · exact ih h'

theorem replaceStr_eq_of_head_not_mem (p : Char) (ps rep : List Char) :
    ∀ l : List Char, p ∉ l → replaceStr (p :: ps) rep l = l := by
  intro l
  unfold replaceStr
  induction l with
  | nil => intro _; rfl
  | cons a rest ih =>
    intro h
    have ha : p ≠ a := fun hpa => h (hpa ▸ List.mem_cons_self a rest)
    have hrest : p ∉ rest := fun hm => h (List.mem_cons_of_mem a hm)
    simp only [replaceStrGo]
    have hpre : ¬ ((p :: ps).isPrefixOf (a :: rest) = true) := by
      simp [List.isPrefixOf]
      exact fun h' => absurd h' ha
    rw [if_neg hpre, ih hrest]

theorem clean_markdown_no_special (text : List Char) :
    '\r' ∉ clean_markdown text ∧ btick ∉ clean_markdown text ∧
      '\t' ∉ clean_markdown text := by
  unfold clean_markdown
  generalize replaceStr ['\r', '\n'] ['\n'] text = t1
  have h2r : '\r' ∉ replaceStr ['\r'] ['\n'] t1 :=
    not_mem_replaceStr_single _ _ (by decide) _
  generalize hg2 : replaceStr ['\r'] ['\n'] t1 = t2 at h2r ⊢
  have h3b : btick ∉ replaceStr [btick] [squote] t2 :=
    not_mem_replaceStr_single _ _ (by decide) _
  have h3r : '\r' ∉ replaceStr [btick] [squote] t2 :=
    not_mem_replaceStr _ _ _ _ h2r (by decide)
  generalize hg3 : replaceStr [btick] [squote] t2 = t3 at h3b h3r ⊢
  rw [replaceStr_eq_of_head_not_mem btick [btick, btick] _ t3 h3b]
  exact ⟨not_mem_replaceStr _ _ _ _ h3r (by decide),
    not_mem_replaceStr _ _ _ _ h3b (by decide),
    not_mem_replaceStr_single _ _ (by decide) _⟩

/-- C9: `clean_markdown` is idempotent — its output contains no carriage
return, no backquote and no tab, so each of the five replacement passes is
the identity on a second application. -/
theorem C9_clean_markdown_idempotent (text : List Char) :
    clean_markdown (clean_markdown text) = clean_markdown text := by
  obtain ⟨hr, hb, ht⟩ := clean_markdown_no_special text
  generalize hgen : clean_markdown text = l at hr hb ht ⊢
  unfold clean_markdown
  rw [replaceStr_eq_of_head_not_mem '\r' ['\n'] ['\n'] l hr,
      replaceStr_eq_of_head_not_mem '\r' [] ['\n'] l hr,
      replaceStr_eq_of_head_not_mem btick [] [squote] l hb,
      replaceStr_eq_of_head_not_mem btick [btick, btick]
        [btick, btick, btick, '\n'] l hb,
      replaceStr_eq_of_head_not_mem '\t' [] [' ', ' ', ' ', ' '] l ht]

/-! ## Lemmas for the escaped-delivery claim -/

theorem replaceStr_single_flatMap (p : Char) (rep : List Char) :
    ∀ l : List Char,
      replaceStr [p] rep l = l.flatMap (fun c => if c = p then rep else [c]) := by
  intro l
  unfold replaceStr
  induction l with
  | nil => rfl
  | cons a rest ih =>
    simp only [replaceStrGo, List.flatMap_cons]
    by_cases ha : a = p
    · subst ha
      have hpre : [a].isPrefixOf (a :: rest) = true := by simp [List.isPrefixOf]
      rw [if_pos hpre, if_pos rfl]
      simp only [List.length_cons, List.length_nil]
      rw [ih]
    · have hpre : ¬ ([p].isPrefixOf (a :: rest) = true) := by
        simp [List.isPrefixOf]
        exact fun h => absurd h.symm ha
      rw [if_neg hpre, if_neg ha, ih]
      rfl

theorem prepare_text_eq_escapeMarkdown (l : List Char) :
    prepare_text l = escapeMarkdown l := by
  unfold prepare_text escapeMarkdown
  rw [replaceStr_single_flatMap, replaceStr_single_flatMap, replaceStr_single_flatMap,
    List.flatMap_assoc, List.flatMap_assoc]
  apply List.flatMap_congr  -- pointwise equality of the per-character maps
  intro c _
  by_cases h1 : c = '_'
  · subst h1; simp [escapeMarkdownChar]; decide
  · by_cases h2 : c = '*'
    · subst h2; simp [escapeMarkdownChar]; decide
    · by_cases h3 : c = btick
      · subst h3; simp [escapeMarkdownChar, h1, h2]
      · simp [escapeMarkdownChar, h1, h2, h3]

theorem chunksOf_eq_single (w : Nat) (l : List Char) (h1 : l ≠ [])
    (h2 : l.length ≤ w) (h3 : w ≠ 0) : chunksOf w l = [l] := by
  rw [chunksOf, if_neg h1, if_neg h3, List.take_of_length_le h2,
    List.drop_eq_nil_of_le h2, chunksOf, if_pos rfl]

/-- C10: every answer delivered on the INLINE or CHUNKED path reaches the
transport as exactly the answer text with every underscore, asterisk and
backquote backslash-escaped by `_prepare_text` (a CHUNKED answer fits in a
single 1000-character window because it is at most 500 characters long). -/
theorem C10_escaped_delivery (text : List Char)
    (h : process_response_mode text = DeliveryMode.INLINE ∨
      process_response_mode text = DeliveryMode.CHUNKED) :
    process_response_messages text = [escapeMarkdown text] := by
  unfold process_response_mode at h
  unfold process_response_messages
  by_cases h1 : text.length ≤ MAX_TEXT_RESPONSE ∧ '\n' ∈ text
  · rw [if_pos h1]
    unfold send_text_chunks
    have hne : text ≠ [] := by
      rintro rfl
      exact absurd h1.2 (by simp)
    have hlen : text.length ≤ 1000 :=
      le_trans h1.1 (by norm_num [MAX_TEXT_RESPONSE])
    rw [chunksOf_eq_single 1000 text hne hlen (by norm_num)]
    simp [prepare_text_eq_escapeMarkdown]
  · rw [if_neg h1] at h ⊢
    by_cases h2 : text.length ≤ 1000
    · rw [if_pos h2]
      rw [prepare_text_eq_escapeMarkdown]
    · rw [if_neg h2] at h ⊢
      rcases h with h | h <;> exact absurd h (by decide)

/-- C10 witness: a short answer containing all three special characters. -/
theorem C10_escaped_delivery_witness :
    process_response_mode ("a_b*c".data) = DeliveryMode.INLINE ∧
    process_response_messages ("a_b*c".data) = [escapeMarkdown ("a_b*c".data)] :=
  ⟨by decide, C10_escaped_delivery _ (Or.inl (by decide))⟩

/-! ## Lemmas about word wrapping -/

theorem splitOnChar_ne_nil (sep : Char) (l : List Char) : splitOnChar sep l ≠ [] := by
  cases l with
  | nil => simp [splitOnChar]
  | cons c rest =>
    simp only [splitOnChar]
    split <;> [simp; split <;> simp]

theorem flatten_splitOnChar (sep : Char) :
    ∀ l : List Char, (splitOnChar sep l).flatten = l.filter (fun c => c != sep) := by
  intro l
  induction l with
  | nil => simp [splitOnChar]
  | cons c rest ih =>
    cases h : splitOnChar sep rest with
    | nil => exact absurd h (splitOnChar_ne_nil sep rest)
    | cons w ws =>
      rw [h] at ih
      simp only [splitOnChar, h]
      by_cases hc : c = sep
      · subst hc
        rw [if_pos rfl]
        simpa [List.filter_cons] using ih
      · rw [if_neg hc]
        have hbe : (c != sep) = true := by
          simpa using hc
        simp only [List.flatten_cons, List.filter_cons, hbe, List.cons_append]
        simp only [List.flatten_cons] at ih
        rw [ih]
        simp

theorem splitOnChar_not_mem (sep : Char) :
    ∀ (l : List Char) (w : List Char), w ∈ splitOnChar sep l → sep ∉ w := by
  intro l
  induction l with
  | nil =>
    intro w hw
    simp [splitOnChar] at hw
    simp [hw]
  | cons c rest ih =>
    intro w hw
    cases h : splitOnChar sep rest with
    | nil => exact absurd h (splitOnChar_ne_nil sep rest)
    | cons w' ws =>
      rw [h] at ih
      simp only [splitOnChar, h] at hw
      by_cases hc : c = sep
      · rw [if_pos hc] at hw
        rcases List.mem_cons.mp hw with rfl | hw'
        · simp
        · exact ih w hw'
      · rw [if_neg hc] at hw
        rcases List.mem_cons.mp hw with rfl | hw'
        · intro hm
          rcases List.mem_cons.mp hm with rfl | hm'
          · exact hc rfl
          · exact ih w' (List.mem_cons_self _ _) hm'
        · exact ih w (List.mem_cons_of_mem _ hw')

theorem splitOnChar_single (sep : Char) :
    ∀ l : List Char, sep ∉ l → splitOnChar sep l = [l] := by
  intro l
  induction l with
  | nil => intro _; rfl
  | cons c rest ih =>
    intro h
    have hc : c ≠ sep := fun hcs => h (hcs ▸ List.mem_cons_self c rest)
    have hrest : sep ∉ rest := fun hm => h (List.mem_cons_of_mem c hm)
    simp only [splitOnChar, ih hrest]
    rw [if_neg hc]

theorem joinSep_length (sep : Char) :
    ∀ ws : List (List Char), ws ≠ [] →
      (joinSep sep ws).length + 1 = (ws.map List.length).sum + ws.length := by
  intro ws
  induction ws with
  | nil => intro h; exact absurd rfl h
  | cons w vs ih =>
    intro _
    cases vs with
    | nil => simp [joinSep]
    | cons v ws' =>
      have := ih (by simp)
      simp only [joinSep, List.length_append, List.length_cons, List.map_cons,
        List.sum_cons] at this ⊢
      omega

theorem dropSpaces_joinSep :
    ∀ ws : List (List Char), dropSpaces (joinSep ' ' ws) = dropSpaces ws.flatten := by
  intro ws
  induction ws with
  | nil => rfl
  | cons w vs ih =>
    cases vs with
    | nil => simp [joinSep, dropSpaces]
    | cons v ws' =>
      simp only [joinSep, dropSpaces, List.flatten_cons, List.filter_append,
        List.filter_cons] at ih ⊢
      simp only [show ((' ' : Char) != ' ') = false from rfl, Bool.false_eq_true,
        if_false] at ih ⊢
      rw [ih]

theorem chunksOf_mem_length (w : Nat) : ∀ l, ∀ ch ∈ chunksOf w l, ch.length ≤ w := by
  intro l
  induction l using chunksOf.induct w with
  | case1 => intro ch h; rw [chunksOf] at h; simp at h
  | case2 l h1 h2 => intro ch h; rw [chunksOf, if_neg h1, if_pos h2] at h; simp at h
  | case3 l h1 h2 ih =>
    intro ch h
    rw [chunksOf, if_neg h1, if_neg h2] at h
    rcases List.mem_cons.mp h with rfl | h'
    · simp
    · exact ih ch h'

theorem flatten_chunksOf (w : Nat) (hw : w ≠ 0) : ∀ l, (chunksOf w l).flatten = l := by
  intro l
  induction l using chunksOf.induct w with
  | case1 => rw [chunksOf]; simp
  | case2 l h1 h2 => exact absurd h2 hw
  | case3 l h1 h2 ih =>
    rw [chunksOf, if_neg h1, if_neg h2]
    simp [ih, List.take_append_drop]

theorem wrapWord_inv (W : Nat) (s : WrapState) (word : List Char)
    (h1 : ∀ x ∈ s.lines, x.length ≤ W)
    (h2 : s.current_length = (s.current_line.map List.length).sum)
    (h3 : s.current_line ≠ [] → (joinSep ' ' s.current_line).length ≤ W) :
    (∀ x ∈ (wrapWord W s word).lines, x.length ≤ W) ∧
    (wrapWord W s word).current_length =
      ((wrapWord W s word).current_line.map List.length).sum ∧
    ((wrapWord W s word).current_line ≠ [] →
      (joinSep ' ' (wrapWord W s word).current_line).length ≤ W) := by
  unfold wrapWord
  by_cases hlong : word.length > W
  · rw [if_pos hlong]
    by_cases hcl : s.current_line = []
    · rw [if_pos hcl]
      refine ⟨?_, h2, h3⟩
      intro x hx
      rcases List.mem_append.mp hx with hx' | hx'
      · exact h1 x hx'
      · exact chunksOf_mem_length W word x hx'
    · rw [if_neg hcl]
      refine ⟨?_, by simp, by simp⟩
      intro x hx
      rcases List.mem_append.mp hx with hx' | hx'
      · rcases List.mem_append.mp hx' with hx'' | hx''
        · exact h1 x hx''
        · rw [List.mem_singleton.mp hx'']
          exact h3 hcl
      · exact chunksOf_mem_length W word x hx'
  · rw [if_neg hlong]
    by_cases hover : s.current_length + word.length + s.current_line.length > W
    · rw [if_pos hover]
      have hcl : s.current_line ≠ [] := by
        intro hc
        rw [hc] at h2 hover
        simp only [List.map_nil, List.sum_nil] at h2
        simp only [List.length_nil] at hover
        omega
      refine ⟨?_, by simp, ?_⟩
      · intro x hx
        rcases List.mem_append.mp hx with hx' | hx'
        · exact h1 x hx'
        · rw [List.mem_singleton.mp hx']
          exact h3 hcl
      · intro _
        show (joinSep ' ' [word]).length ≤ W
        simp only [joinSep]
        omega
    · rw [if_neg hover]
      refine ⟨h1, by simp [h2], ?_⟩
      intro _
      show (joinSep ' ' (s.current_line ++ [word])).length ≤ W
      have hne : s.current_line ++ [word] ≠ [] := by simp
      have hj := joinSep_length ' ' (s.current_line ++ [word]) hne
      simp only [List.map_append, List.sum_append, List.length_append,
        List.map_cons, List.map_nil, List.sum_cons, List.sum_nil,
        List.length_cons, List.length_nil] at hj
      omega

theorem wrapWord_content (W : Nat) (hW : W ≠ 0) (s : WrapState) (word : List Char) :
    dropSpaces (wrapWord W s word).lines.flatten ++
      dropSpaces (wrapWord W s word).current_line.flatten =
    (dropSpaces s.lines.flatten ++ dropSpaces s.current_line.flatten) ++
      dropSpaces word := by
  unfold wrapWord
  by_cases hlong : word.length > W
  · rw [if_pos hlong]
    by_cases hcl : s.current_line = []
    · rw [if_pos hcl]
      simp only [hcl, List.flatten_nil]
      simp only [dropSpaces, List.filter_append, List.flatten_append,
        flatten_chunksOf W hW word, List.filter_nil, List.append_nil]
    · rw [if_neg hcl]
      simp only [List.flatten_nil, List.flatten_append, List.flatten_cons,
        dropSpaces, List.filter_append, List.filter_nil, List.append_nil,
        flatten_chunksOf W hW word]
      rw [show List.filter (fun c => c != ' ') (joinSep ' ' s.current_line) =
            dropSpaces (joinSep ' ' s.current_line) from rfl,
          dropSpaces_joinSep]
      simp [dropSpaces, List.append_assoc]
  · rw [if_neg hlong]
    by_cases hover : s.current_length + word.length + s.current_line.length > W
    · rw [if_pos hover]
      simp only [List.flatten_append, List.flatten_cons, List.flatten_nil,
        dropSpaces, List.filter_append, List.append_nil]
      rw [show List.filter (fun c => c != ' ') (joinSep ' ' s.current_line) =
            dropSpaces (joinSep ' ' s.current_line) from rfl,
          dropSpaces_joinSep]
      simp [dropSpaces, List.append_assoc]
    · rw [if_neg hover]
      simp [dropSpaces, List.filter_append, List.append_assoc]

theorem foldl_wrapWord_inv (W : Nat) :
    ∀ (words : List (List Char)) (s : WrapState),
      (∀ x ∈ s.lines, x.length ≤ W) →
      s.current_length = (s.current_line.map List.length).sum →
      (s.current_line ≠ [] → (joinSep ' ' s.current_line).length ≤ W) →
      (∀ x ∈ (words.foldl (wrapWord W) s).lines, x.length ≤ W) ∧
      (words.foldl (wrapWord W) s).current_length =
        (((words.foldl (wrapWord W) s).current_line).map List.length).sum ∧
      ((words.foldl (wrapWord W) s).current_line ≠ [] →
        (joinSep ' ' (words.foldl (wrapWord W) s).current_line).length ≤ W) := by
  intro words
  induction words with
  | nil => intro s h1 h2 h3; exact ⟨h1, h2, h3⟩
  | cons w ws ih =>
    intro s h1 h2 h3
    obtain ⟨g1, g2, g3⟩ := wrapWord_inv W s w h1 h2 h3
    exact ih (wrapWord W s w) g1 g2 g3

theorem foldl_wrapWord_content (W : Nat) (hW : W ≠ 0) :
    ∀ (words : List (List Char)) (s : WrapState),
      s.current_length = (s.current_line.map List.length).sum →
      (∀ x ∈ s.lines, x.length ≤ W) →
      (s.current_line ≠ [] → (joinSep ' ' s.current_line).length ≤ W) →
      dropSpaces (words.foldl (wrapWord W) s).lines.flatten ++
        dropSpaces (words.foldl (wrapWord W) s).current_line.flatten =
      (dropSpaces s.lines.flatten ++ dropSpaces s.current_line.flatten) ++
        dropSpaces words.flatten := by
  intro words
  induction words with
  | nil =>
    intro s _ _ _
    simp [dropSpaces]
  | cons w ws ih =>
    intro s h2 h1 h3
    obtain ⟨g1, g2, g3⟩ := wrapWord_inv W s w h1 h2 h3
    have hrec := ih (wrapWord W s w) g2 g1 g3
    rw [List.foldl_cons, hrec, wrapWord_content W hW s w]
    simp [dropSpaces, List.filter_append, List.append_assoc]

theorem wrapParagraph_lines_le (W : Nat) (lines0 : List (List Char))
    (para : List Char) (h : ∀ x ∈ lines0, x.length ≤ W) :
    ∀ x ∈ wrapParagraph W lines0 para, x.length ≤ W := by
  unfold wrapParagraph
  obtain ⟨g1, g2, g3⟩ := foldl_wrapWord_inv W (splitOnChar ' ' para)
    ⟨lines0, [], 0⟩ h (by simp) (by simp)
  intro x hx
  by_cases hcl :
      ((splitOnChar ' ' para).foldl (wrapWord W) ⟨lines0, [], 0⟩).current_line = []
  · rw [if_pos hcl] at hx
    exact g1 x hx
  · rw [if_neg hcl] at hx
    rcases List.mem_append.mp hx with hx' | hx'
    · exact g1 x hx'
    · rw [List.mem_singleton.mp hx']
      exact g3 hcl

theorem wrapParagraph_content (W : Nat) (hW : W ≠ 0) (lines0 : List (List Char))
    (para : List Char) (h : ∀ x ∈ lines0, x.length ≤ W) :
    dropSpaces (wrapParagraph W lines0 para).flatten =
      dropSpaces lines0.flatten ++ dropSpaces para := by
  unfold wrapParagraph
  have hfold := foldl_wrapWord_content W hW (splitOnChar ' ' para)
    ⟨lines0, [], 0⟩ (by simp) h (by simp)
  have hwords : dropSpaces (splitOnChar ' ' para).flatten = dropSpaces para := by
    rw [flatten_splitOnChar]
    simp [dropSpaces, List.filter_filter]
  by_cases hcl :
      ((splitOnChar ' ' para).foldl (wrapWord W) ⟨lines0, [], 0⟩).current_line = []
  · rw [if_pos hcl]
    rw [hcl] at hfold
    simp only [List.flatten_nil, dropSpaces, List.filter_nil, List.append_nil,
      List.filter_append] at hfold ⊢
    rw [hfold]
    simp only [dropSpaces, List.filter_append] at hwords
    rw [hwords]
  · rw [if_neg hcl]
    simp only [List.flatten_append, List.flatten_cons, List.flatten_nil,
      List.append_nil, dropSpaces, List.filter_append] at hfold ⊢
    rw [show List.filter (fun c => c != ' ')
          (joinSep ' '
            ((splitOnChar ' ' para).foldl (wrapWord W) ⟨lines0, [], 0⟩).current_line) =
        dropSpaces (joinSep ' '
          ((splitOnChar ' ' para).foldl (wrapWord W) ⟨lines0, [], 0⟩).current_line)
        from rfl, dropSpaces_joinSep]
    simp only [dropSpaces, List.filter_append] at hwords ⊢
    rw [hfold, hwords]
    simp

theorem wrap_text_lines_le (text : List Char) (W : Nat) :
    ∀ x ∈ wrap_text text W, x.length ≤ W := by
  unfold wrap_text
  have key : ∀ (ps : List (List Char)) (lines0 : List (List Char)),
      (∀ x ∈ lines0, x.length ≤ W) →
      ∀ x ∈ ps.foldl (wrapParagraph W) lines0, x.length ≤ W := by
    intro ps
    induction ps with
    | nil => intro lines0 h; exact h
    | cons p ps ih =>
      intro lines0 h
      exact ih (wrapParagraph W lines0 p) (wrapParagraph_lines_le W lines0 p h)
  exact key (splitOnChar '\n' text) [] (by simp)

theorem wrap_text_content (text : List Char) (W : Nat) (hW : W ≠ 0) :
    dropSpaces (wrap_text text W).flatten = dropWhitespace text := by
  unfold wrap_text
  have key : ∀ (ps : List (List Char)) (lines0 : List (List Char)),
      (∀ x ∈ lines0, x.length ≤ W) →
      dropSpaces (ps.foldl (wrapParagraph W) lines0).flatten =
        dropSpaces lines0.flatten ++ dropSpaces ps.flatten := by
    intro ps
    induction ps with
    | nil => intro lines0 _; simp [dropSpaces]
    | cons p ps ih =>
      intro lines0 h
      rw [List.foldl_cons,
        ih (wrapParagraph W lines0 p) (wrapParagraph_lines_le W lines0 p h),
        wrapParagraph_content W hW lines0 p h]
      simp [dropSpaces, List.filter_append, List.append_assoc]
  rw [key (splitOnChar '\n' text) [] (by simp), flatten_splitOnChar]
  simp [dropSpaces, dropWhitespace, List.filter_filter]

theorem wrap_text_single_long_word (text : List Char) (W : Nat)
    (hsp : ' ' ∉ text) (hnl : '\n' ∉ text) (hlong : W < text.length) :
    wrap_text text W = chunksOf W text := by
  unfold wrap_text
  rw [splitOnChar_single '\n' text hnl]
  simp only [List.foldl_cons, List.foldl_nil]
  unfold wrapParagraph
  rw [splitOnChar_single ' ' text hsp]
  simp only [List.foldl_cons, List.foldl_nil]
  unfold wrapWord
  rw [if_pos (by omega : text.length > W)]
  simp

/-- C2: for every text `T` and width `W ≥ 1`, (i) every line produced by
`_wrap_text T W` has length at most `W`; (ii) the concatenation of the
produced lines reproduces the non-space characters of `T` — i.e. `T`'s
words, and the fragments of hard-split over-long words, in their original
order (the produced lines contain exactly the single spaces reinserted
between packed words); and (iii) a single word longer than `W` (text with no
space and no newline) is hard-split into exactly the fixed-width fragments
`chunksOf W`, each of length at most `W` by (i). -/
theorem C2_wrap_text_spec (text : List Char) (W : Nat) (hW : 1 ≤ W) :
    (∀ line ∈ wrap_text text W, line.length ≤ W) ∧
    dropSpaces (wrap_text text W).flatten = dropWhitespace text ∧
    ((' ' ∉ text ∧ '\n' ∉ text ∧ W < text.length) →
      wrap_text text W = chunksOf W text) :=
  ⟨wrap_text_lines_le text W,
   wrap_text_content text W (by omega),
   fun h => wrap_text_single_long_word text W h.1 h.2.1 h.2.2⟩

/-- C2 witness: the wrap specification applied at a concrete text and width,
with the wrapped output evaluated. -/
theorem C2_wrap_text_spec_witness :
    (1 ≤ 5 ∧
      dropSpaces (wrap_text ("hello world ab".data) 5).flatten =
        dropWhitespace ("hello world ab".data)) ∧
    wrap_text ("hello world ab".data) 5 =
      ["hello".data, "world".data, "ab".data] :=
  ⟨⟨by decide, (C2_wrap_text_spec ("hello world ab".data) 5 (by decide)).2.1⟩,
   by decide⟩

/-! ## Lemmas about timestamped file names -/

theorem digitChar_toNat (d : Nat) (h : d < 10) : (digitChar d).toNat = 48 + d := by
  interval_cases d <;> decide

theorem valFrom_natDigits (n : Nat) : ∀ a : Nat,
    (natDigits n).foldl (fun x c => 10 * x + (c.toNat - 48)) a =
      a * 10 ^ (natDigits n).length + n := by
  induction n using natDigits.induct with
  | case1 n h =>
    intro a
    rw [natDigits, if_pos h]
    simp only [List.foldl_cons, List.foldl_nil, List.length_cons,
      List.length_nil, pow_one]
    rw [digitChar_toNat n h]
    omega
  | case2 n h ih =>
    intro a
    rw [natDigits, if_neg h]
    rw [List.foldl_append, ih a]
    simp only [List.foldl_cons, List.foldl_nil]
    rw [digitChar_toNat (n % 10) (Nat.mod_lt _ (by norm_num))]
    rw [List.length_append, List.length_cons, List.length_nil, pow_succ]
    have h48 : 48 + n % 10 - 48 = n % 10 := by omega
    rw [h48]
    calc 10 * (a * 10 ^ (natDigits (n / 10)).length + n / 10) + n % 10
        = a * (10 ^ (natDigits (n / 10)).length * 10) +
            (10 * (n / 10) + n % 10) := by ring
      _ = a * 10 ^ ((natDigits (n / 10)).length + (0 + 1)) + n := by
          rw [Nat.div_add_mod, pow_add]
          ring

theorem valFrom_padNum (w n : Nat) :
    (padNum w n).foldl (fun x c => 10 * x + (c.toNat - 48)) 0 = n := by
  unfold padNum
  rw [List.foldl_append]
  have hzero : ∀ m : Nat,
      (List.replicate m '0').foldl (fun x c => 10 * x + (c.toNat - 48)) 0 = 0 := by
    intro m
    induction m with
    | zero => rfl
    | succ m ih =>
      rw [List.replicate_succ, List.foldl_cons]
      simpa using ih
  rw [hzero]
  simpa using valFrom_natDigits n 0

theorem natDigits_length_le :
    ∀ n w : Nat, 1 ≤ w → n < 10 ^ w → (natDigits n).length ≤ w := by
  intro n
  induction n using Nat.strong_induction_on with
  | _ n ih =>
    intro w hw hn
    by_cases h : n < 10
    · rw [natDigits, if_pos h]
      simpa using hw
    · rw [natDigits, if_neg h]
      have hw2 : 2 ≤ w := by
        by_contra hc
        have hw1 : w = 1 := by omega
        rw [hw1, pow_one] at hn
        omega
      have hdiv : n / 10 < 10 ^ (w - 1) := by
        have hp : 10 ^ w = 10 ^ (w - 1) * 10 := by
          rw [← pow_succ]
          congr 1
          omega
        rw [hp] at hn
        generalize (10:Nat) ^ (w - 1) = P at hn ⊢
        omega
      have := ih (n / 10) (Nat.div_lt_self (by omega) (by norm_num))
        (w - 1) (by omega) hdiv
      rw [List.length_append, List.length_cons, List.length_nil]
      omega

theorem padNum_length (w n : Nat) (hw : 1 ≤ w) (hn : n < 10 ^ w) :
    (padNum w n).length = w := by
  unfold padNum
  rw [List.length_append, List.length_replicate]
  have := natDigits_length_le n w hw hn
  omega

theorem padNum_inj_append (w n m : Nat) (r s : List Char) (hw : 1 ≤ w)
    (hn : n < 10 ^ w) (hm : m < 10 ^ w)
    (h : padNum w n ++ r = padNum w m ++ s) : n = m ∧ r = s := by
  have hlen : (padNum w n).length = (padNum w m).length := by
    rw [padNum_length w n hw hn, padNum_length w m hw hm]
  obtain ⟨h1, h2⟩ := List.append_inj h hlen
  refine ⟨?_, h2⟩
  have hv := valFrom_padNum w n
  rw [h1, valFrom_padNum w m] at hv
  omega

theorem strftime_ts_inj (t1 t2 : Timestamp) (h1 : TsValid t1) (h2 : TsValid t2)
    (h : strftime_ts t1 = strftime_ts t2) : t1 = t2 := by
  obtain ⟨hy1, hmo1, hd1, hh1, hmi1, hs1, hus1⟩ := h1
  obtain ⟨hy2, hmo2, hd2, hh2, hmi2, hs2, hus2⟩ := h2
  unfold strftime_ts at h
  obtain ⟨ey, h⟩ := padNum_inj_append 4 _ _ _ _ (by norm_num)
    (by norm_num at hy1 ⊢; omega) (by norm_num at hy2 ⊢; omega) h
  obtain ⟨emo, h⟩ := padNum_inj_append 2 _ _ _ _ (by norm_num)
    (by norm_num at hmo1 ⊢; omega) (by norm_num at hmo2 ⊢; omega) h
  obtain ⟨ed, h⟩ := padNum_inj_append 2 _ _ _ _ (by norm_num)
    (by norm_num at hd1 ⊢; omega) (by norm_num at hd2 ⊢; omega) h
  rw [List.cons.injEq] at h
  obtain ⟨-, h⟩ := h
  obtain ⟨eh, h⟩ := padNum_inj_append 2 _ _ _ _ (by norm_num)
    (by norm_num at hh1 ⊢; omega) (by norm_num at hh2 ⊢; omega) h
  obtain ⟨emi, h⟩ := padNum_inj_append 2 _ _ _ _ (by norm_num)
    (by norm_num at hmi1 ⊢; omega) (by norm_num at hmi2 ⊢; omega) h
  obtain ⟨es, h⟩ := padNum_inj_append 2 _ _ _ _ (by norm_num)
    (by norm_num at hs1 ⊢; omega) (by norm_num at hs2 ⊢; omega) h
  rw [List.cons.injEq] at h
  obtain ⟨-, h⟩ := h
  have eus : t1.microsecond = t2.microsecond := by
    have hv := valFrom_padNum 6 t1.microsecond
    rw [h, valFrom_padNum 6 t2.microsecond] at hv
    omega
  obtain ⟨y1, mo1, d1, hh1', mi1, s1, us1⟩ := t1
  obtain ⟨y2, mo2, d2, hh2', mi2, s2, us2⟩ := t2
  simp_all

/-- C8 (amended): two `create_temp_file` calls whose captured wall-clock
timestamps differ in any field return distinct paths — the file name embeds
the full `%Y%m%d_%H%M%S_%f` rendering, which is injective on in-range
timestamps.  There is no monotonic disambiguator beyond the timestamp, so
distinctness holds exactly up to microsecond resolution. -/
theorem C8_distinct_timestamps (user_id : Nat) (pre ext : List Char)
    (t1 t2 : Timestamp) (h1 : TsValid t1) (h2 : TsValid t2) (hne : t1 ≠ t2) :
    create_temp_file user_id pre ext t1 ≠ create_temp_file user_id pre ext t2 := by
  intro heq
  apply hne
  unfold create_temp_file at heq
  simp only [List.cons.injEq, PathC.file.injEq, and_true, true_and] at heq
  have hts : strftime_ts t1 ++ (if ext.isEmpty then [] else '.' :: ext) =
      strftime_ts t2 ++ (if ext.isEmpty then [] else '.' :: ext) := by
    have h' := heq
    rw [List.append_assoc, List.append_assoc] at h'
    exact List.append_cancel_left h'
  have hlen : (strftime_ts t1).length = (strftime_ts t2).length := by
    obtain ⟨hy1, hmo1, hd1, hh1, hmi1, hs1, hus1⟩ := h1
    obtain ⟨hy2, hmo2, hd2, hh2, hmi2, hs2, hus2⟩ := h2
    unfold strftime_ts
    simp only [List.length_append, List.length_cons]
    rw [padNum_length 4 _ (by norm_num) (by norm_num at hy1 ⊢; omega),
        padNum_length 4 _ (by norm_num) (by norm_num at hy2 ⊢; omega),
        padNum_length 2 _ (by norm_num) (by norm_num at hmo1 ⊢; omega),
        padNum_length 2 _ (by norm_num) (by norm_num at hmo2 ⊢; omega),
        padNum_length 2 _ (by norm_num) (by norm_num at hd1 ⊢; omega),
        padNum_length 2 _ (by norm_num) (by norm_num at hd2 ⊢; omega),
        padNum_length 2 _ (by norm_num) (by norm_num at hh1 ⊢; omega),
        padNum_length 2 _ (by norm_num) (by norm_num at hh2 ⊢; omega),
        padNum_length 2 _ (by norm_num) (by norm_num at hmi1 ⊢; omega),
        padNum_length 2 _ (by norm_num) (by norm_num at hmi2 ⊢; omega),
        padNum_length 2 _ (by norm_num) (by norm_num at hs1 ⊢; omega),
        padNum_length 2 _ (by norm_num) (by norm_num at hs2 ⊢; omega),
        padNum_length 6 _ (by norm_num) (by norm_num at hus1 ⊢; omega),
        padNum_length 6 _ (by norm_num) (by norm_num at hus2 ⊢; omega)]
  exact strftime_ts_inj t1 t2 h1 h2 (List.append_inj hts hlen).1

/-- C8 counterexample: the claim promises distinct paths for any two distinct
calls on the strength of a monotonic disambiguator — but the file name is a
pure function of the captured timestamp, so two calls falling in the same
microsecond (same `strftime` output) yield the very same path. -/
theorem C8_counterexample :
    ¬ List.Pairwise (fun a b => a ≠ b)
      (callPaths 1 ("pdf_".data) ("pdf".data) [ts2025, ts2025]) := by
  intro h
  rw [callPaths, List.map_cons, List.map_cons, List.map_nil] at h
  exact (List.pairwise_cons.mp h).1 _ (List.mem_singleton.mpr rfl) rfl

/-- C8 witness: two in-range instants one microsecond apart give distinct
paths. -/
theorem C8_distinct_timestamps_witness :
    TsValid ts2025 ∧ TsValid ts2025b ∧ ts2025 ≠ ts2025b ∧
    create_temp_file 1 ("pdf_".data) ("pdf".data) ts2025 ≠
      create_temp_file 1 ("pdf_".data) ("pdf".data) ts2025b :=
  ⟨by decide, by decide, by decide,
   C8_distinct_timestamps 1 _ _ _ _ (by decide) (by decide) (by decide)⟩

/-! ## Lemmas about the plain-text rendering rules -/

theorem splitAtChar_eq (t : Char) :
    ∀ (l : List Char) (p : List Char × List Char),
      splitAtChar t l = some p → p.1 ++ t :: p.2 = l := by
  intro l
  induction l with
  | nil => intro p h; simp [splitAtChar] at h
  | cons c rest ih =>
    intro p h
    simp only [splitAtChar] at h
    by_cases hc : c = t
    · rw [if_pos hc] at h
      injection h with h
      subst h
      simp [hc]
    · rw [if_neg hc] at h
      cases hs : splitAtChar t rest with
      | none => rw [hs] at h; simp at h
      | some q =>
        rw [hs] at h
        simp only [Option.map_some', Option.some.injEq] at h
        subst h
        simpa using ih q hs

theorem splitAtDoubleStar_eq :
    ∀ (l : List Char) (p : List Char × List Char),
      splitAtDoubleStar l = some p → p.1 ++ '*' :: '*' :: p.2 = l := by
  intro l
  induction l with
  | nil => intro p h; simp [splitAtDoubleStar] at h
  | cons c rest ih =>
    intro p h
    simp only [splitAtDoubleStar] at h
    by_cases hc : c = '*' ∧ rest.head? = some '*'
    · rw [if_pos hc] at h
      injection h with h
      subst h
      obtain ⟨rfl, hh⟩ := hc
      cases rest with
      | nil => simp at hh
      | cons r rs =>
        simp only [List.head?_cons, Option.some.injEq] at hh
        subst hh
        simp
    · rw [if_neg hc] at h
      cases hs : splitAtDoubleStar rest with
      | none => rw [hs] at h; simp at h
      | some q =>
        rw [hs] at h
        simp only [Option.map_some', Option.some.injEq] at h
        subst h
        simpa using ih q hs

theorem splitAtSeq2_eq (a b : Char) :
    ∀ (l : List Char) (p : List Char × List Char),
      splitAtSeq2 a b l = some p → p.1 ++ a :: b :: p.2 = l := by
  intro l
  induction l with
  | nil => intro p h; simp [splitAtSeq2] at h
  | cons c rest ih =>
    intro p h
    simp only [splitAtSeq2] at h
    by_cases hc : c = a ∧ rest.head? = some b
    · rw [if_pos hc] at h
      injection h with h
      subst h
      obtain ⟨rfl, hh⟩ := hc
      cases rest with
      | nil => simp at hh
      | cons r rs =>
        simp only [List.head?_cons, Option.some.injEq] at hh
        subst hh
        simp
    · rw [if_neg hc] at h
      cases hs : splitAtSeq2 a b rest with
      | none => rw [hs] at h; simp at h
      | some q =>
        rw [hs] at h
        simp only [Option.map_some', Option.some.injEq] at h
        subst h
        simpa using ih q hs

theorem splitAtTriple_eq :
    ∀ (l : List Char) (p : List Char × List Char),
      splitAtTriple l = some p → p.1 ++ btick :: btick :: btick :: p.2 = l := by
  intro l
  induction l with
  | nil => intro p h; simp [splitAtTriple] at h
  | cons c rest ih =>
    intro p h
    simp only [splitAtTriple] at h
    by_cases hc : c = btick ∧ rest.take 2 = [btick, btick]
    · rw [if_pos hc] at h
      injection h with h
      subst h
      obtain ⟨rfl, hh⟩ := hc
      have := List.take_append_drop 2 rest
      rw [hh] at this
      simp only [List.nil_append]
      rw [← this]
      rfl
    · rw [if_neg hc] at h
      cases hs : splitAtTriple rest with
      | none => rw [hs] at h; simp at h
      | some q =>
        rw [hs] at h
        simp only [Option.map_some', Option.some.injEq] at h
        subst h
        simpa using ih q hs

theorem hash_not_mem_stripHeadingsGo :
    ∀ (l : List Char) (k : Nat), '#' ∉ stripHeadingsGo k l := by
  intro l
  induction l with
  | nil => intro k; cases k <;> simp [stripHeadingsGo]
  | cons a rest ih =>
    intro k
    cases k with
    | succ k =>
      simp only [stripHeadingsGo]
      exact ih k
    | zero =>
      simp only [stripHeadingsGo]
      by_cases ha : a = '#'
      · rw [if_pos ha]
        exact ih _
      · rw [if_neg ha]
        intro hm
        rcases List.mem_cons.mp hm with h' | h'
        · exact ha h'.symm
        · exact ih 0 h'

theorem mem_replaceBoldGo (x : Char) :
    ∀ (l : List Char) (k : Nat), x ∈ replaceBoldGo k l → x ∈ l := by
  intro l
  induction l with
  | nil => intro k h; cases k <;> simp [replaceBoldGo] at h
  | cons a rest ih =>
    intro k h
    cases k with
    | succ k =>
      simp only [replaceBoldGo] at h
      exact List.mem_cons_of_mem a (ih k h)
    | zero =>
      simp only [replaceBoldGo] at h
      by_cases ha : a = '*' ∧ rest.head? = some '*'
      · rw [if_pos ha] at h
        cases hs : splitAtDoubleStar rest.tail with
        | some p =>
          rw [hs] at h
          rcases List.mem_append.mp h with h' | h'
          · have heq := splitAtDoubleStar_eq rest.tail p hs
            have hx : x ∈ rest.tail := heq ▸ List.mem_append.mpr (Or.inl h')
            exact List.mem_cons_of_mem a (List.mem_of_mem_tail hx)
          · exact List.mem_cons_of_mem a (ih _ h')
        | none =>
          rw [hs] at h
          rcases List.mem_cons.mp h with rfl | h'
          · exact ha.1 ▸ List.mem_cons_self _ _
          · exact List.mem_cons_of_mem a (ih 0 h')
      · rw [if_neg ha] at h
        rcases List.mem_cons.mp h with rfl | h'
        · exact List.mem_cons_self _ _
        · exact List.mem_cons_of_mem a (ih 0 h')

theorem mem_replaceDelimGo (t x : Char) :
    ∀ (l : List Char) (k : Nat), x ∈ replaceDelimGo t k l → x ∈ l := by
  intro l
  induction l with
  | nil => intro k h; cases k <;> simp [replaceDelimGo] at h
  | cons a rest ih =>
    intro k h
    cases k with
    | succ k =>
      simp only [replaceDelimGo] at h
      exact List.mem_cons_of_mem a (ih k h)
    | zero =>
      simp only [replaceDelimGo] at h
      by_cases ha : a = t
      · rw [if_pos ha] at h
        cases hs : splitAtChar t rest with
        | some p =>
          rw [hs] at h
          rcases List.mem_append.mp h with h' | h'
          · have heq := splitAtChar_eq t rest p hs
            exact List.mem_cons_of_mem a (heq ▸ List.mem_append.mpr (Or.inl h'))
          · exact List.mem_cons_of_mem a (ih _ h')
        | none =>
          rw [hs] at h
          rcases List.mem_cons.mp h with rfl | h'
          · exact List.mem_cons_self _ _
          · exact List.mem_cons_of_mem a (ih 0 h')
      · rw [if_neg ha] at h
        rcases List.mem_cons.mp h with rfl | h'
        · exact List.mem_cons_self _ _
        · exact List.mem_cons_of_mem a (ih 0 h')

theorem mem_replaceFenceGo (x : Char) :
    ∀ (l : List Char) (k : Nat), x ∈ replaceFenceGo k l → x ∈ l := by
  intro l
  induction l with
  | nil => intro k h; cases k <;> simp [replaceFenceGo] at h
  | cons a rest ih =>
    intro k h
    cases k with
    | succ k =>
      simp only [replaceFenceGo] at h
      exact List.mem_cons_of_mem a (ih k h)
    | zero =>
      simp only [replaceFenceGo] at h
      by_cases ha : a = btick ∧ rest.take 2 = [btick, btick]
      · rw [if_pos ha] at h
        cases hs1 : splitAtChar '\n' (rest.drop 2) with
        | some p =>
          rw [hs1] at h
          dsimp only at h
          cases hs2 : splitAtTriple p.2 with
          | some q =>
            rw [hs2] at h
            rcases List.mem_append.mp h with h' | h'
            · have heq2 := splitAtTriple_eq p.2 q hs2
              have hx2 : x ∈ p.2 := heq2 ▸ List.mem_append.mpr (Or.inl h')
              have heq1 := splitAtChar_eq '\n' (rest.drop 2) p hs1
              have hx1 : x ∈ rest.drop 2 := by
                rw [← heq1]
                exact List.mem_append.mpr (Or.inr (List.mem_cons_of_mem _ hx2))
              exact List.mem_cons_of_mem a (List.mem_of_mem_drop hx1)
            · exact List.mem_cons_of_mem a (ih _ h')
          | none =>
            rw [hs2] at h
            rcases List.mem_cons.mp h with rfl | h'
            · exact ha.1 ▸ List.mem_cons_self _ _
            · exact List.mem_cons_of_mem a (ih 0 h')
        | none =>
          rw [hs1] at h
          rcases List.mem_cons.mp h with rfl | h'
          · exact ha.1 ▸ List.mem_cons_self _ _
          · exact List.mem_cons_of_mem a (ih 0 h')
      · rw [if_neg ha] at h
        rcases List.mem_cons.mp h with rfl | h'
        · exact List.mem_cons_self _ _
        · exact List.mem_cons_of_mem a (ih 0 h')

theorem mem_removeImagesGo (x : Char) :
    ∀ (l : List Char) (k : Nat), x ∈ removeImagesGo k l → x ∈ l := by
  intro l
  induction l with
  | nil => intro k h; cases k <;> simp [removeImagesGo] at h
  | cons a rest ih =>
    intro k h
    cases k with
    | succ k =>
      simp only [removeImagesGo] at h
      exact List.mem_cons_of_mem a (ih k h)
    | zero =>
      simp only [removeImagesGo] at h
      by_cases ha : a = '!' ∧ rest.head? = some '['
      · rw [if_pos ha] at h
        cases hs1 : splitAtSeq2 ']' '(' rest.tail with
        | some p =>
          rw [hs1] at h
          dsimp only at h
          cases hs2 : splitAtChar ')' p.2 with
          | some q =>
            rw [hs2] at h
            exact List.mem_cons_of_mem a (ih _ h)
          | none =>
            rw [hs2] at h
            rcases List.mem_cons.mp h with rfl | h'
            · exact ha.1 ▸ List.mem_cons_self _ _
            · exact List.mem_cons_of_mem a (ih 0 h')
        | none =>
          rw [hs1] at h
          rcases List.mem_cons.mp h with rfl | h'
          · exact ha.1 ▸ List.mem_cons_self _ _
          · exact List.mem_cons_of_mem a (ih 0 h')
      · rw [if_neg ha] at h
        rcases List.mem_cons.mp h with rfl | h'
        · exact List.mem_cons_self _ _
        · exact List.mem_cons_of_mem a (ih 0 h')

theorem mem_replaceLinksGo (x : Char) :
    ∀ (l : List Char) (k : Nat), x ∈ replaceLinksGo k l → x ∈ l := by
  intro l
  induction l with
  | nil => intro k h; cases k <;> simp [replaceLinksGo] at h
  | cons a rest ih =>
    intro k h
    cases k with
    | succ k =>
      simp only [replaceLinksGo] at h
      exact List.mem_cons_of_mem a (ih k h)
    | zero =>
      simp only [replaceLinksGo] at h
      by_cases ha : a = '['
      · rw [if_pos ha] at h
        cases hs1 : splitAtSeq2 ']' '(' rest with
        | some p =>
          rw [hs1] at h
          dsimp only at h
          cases hs2 : splitAtChar ')' p.2 with
          | some q =>
            rw [hs2] at h
            rcases List.mem_append.mp h with h' | h'
            · have heq := splitAtSeq2_eq ']' '(' rest p hs1
              exact List.mem_cons_of_mem a (heq ▸ List.mem_append.mpr (Or.inl h'))
            · exact List.mem_cons_of_mem a (ih _ h')
          | none =>
            rw [hs2] at h
            rcases List.mem_cons.mp h with rfl | h'
            · exact List.mem_cons_self _ _
            · exact List.mem_cons_of_mem a (ih 0 h')
        | none =>
          rw [hs1] at h
          rcases List.mem_cons.mp h with rfl | h'
          · exact List.mem_cons_self _ _
          · exact List.mem_cons_of_mem a (ih 0 h')
      · rw [if_neg ha] at h
        rcases List.mem_cons.mp h with rfl | h'
        · exact List.mem_cons_self _ _
        · exact List.mem_cons_of_mem a (ih 0 h')

theorem mem_subBulletGo (mark x : Char) :
    ∀ (l : List Char) (k : Nat) (b : Bool),
      x ∈ subBulletGo mark k b l → x ∈ l ∨ x = '•' ∨ x = ' ' := by
  intro l
  induction l with
  | nil => intro k b h; cases k <;> simp [subBulletGo] at h
  | cons a rest ih =>
    intro k b h
    cases k with
    | succ k =>
      simp only [subBulletGo] at h
      rcases ih k _ h with h' | h' <;>
        [exact Or.inl (List.mem_cons_of_mem a h'); exact Or.inr h']
    | zero =>
      simp only [subBulletGo] at h
      by_cases hb : b = true
      · rw [if_pos hb] at h
        cases hs : tryBulletLen mark (a :: rest) with
        | some n =>
          rw [hs] at h
          rcases List.mem_cons.mp h with rfl | h'
          · exact Or.inr (Or.inl rfl)
          · rcases List.mem_cons.mp h' with rfl | h'' <;>
              [exact Or.inr (Or.inr rfl); skip]
            rcases ih _ _ h'' with h3 | h3 <;>
              [exact Or.inl (List.mem_cons_of_mem a h3); exact Or.inr h3]
        | none =>
          rw [hs] at h
          rcases List.mem_cons.mp h with rfl | h'
          · exact Or.inl (List.mem_cons_self _ _)
          · rcases ih _ _ h' with h3 | h3 <;>
              [exact Or.inl (List.mem_cons_of_mem a h3); exact Or.inr h3]
      · rw [if_neg hb] at h
        rcases List.mem_cons.mp h with rfl | h'
        · exact Or.inl (List.mem_cons_self _ _)
        · rcases ih _ _ h' with h3 | h3 <;>
            [exact Or.inl (List.mem_cons_of_mem a h3); exact Or.inr h3]

theorem mem_subOrderedGo (x : Char) :
    ∀ (l : List Char) (k : Nat) (b : Bool),
      x ∈ subOrderedGo k b l → x ∈ l := by
  intro l
  induction l with
  | nil => intro k b h; cases k <;> simp [subOrderedGo] at h
  | cons a rest ih =>
    intro k b h
    cases k with
    | succ k =>
      simp only [subOrderedGo] at h
      exact List.mem_cons_of_mem a (ih k _ h)
    | zero =>
      simp only [subOrderedGo] at h
      by_cases hb : b = true
      · rw [if_pos hb] at h
        cases hs : tryOrderedLen (a :: rest) with
        | some n =>
          rw [hs] at h
          exact List.mem_cons_of_mem a (ih _ _ h)
        | none =>
          rw [hs] at h
          rcases List.mem_cons.mp h with rfl | h'
          · exact List.mem_cons_self _ _
          · exact List.mem_cons_of_mem a (ih _ _ h')
      · rw [if_neg hb] at h
        rcases List.mem_cons.mp h with rfl | h'
        · exact List.mem_cons_self _ _
        · exact List.mem_cons_of_mem a (ih _ _ h')

/-- C3 counterexample: the claim says fenced code blocks are stripped before
generic inline-backquote stripping, so that fence boundaries are not
corrupted.  On the code the order is reversed: for a well-formed fenced
block the inline-backquote rule consumes the fence backquotes pairwise and
the language tag `py` of the fence line leaks into the output
(`"py\ncode\n"`), while the claimed fence-first order would strip the fence
line and produce `"code\n"`. -/
theorem C3_counterexample :
    markdown_to_plain_text ("```py\ncode\n```".data) = "py\ncode\n".data ∧
    markdown_to_plain_text_fenceFirst ("```py\ncode\n```".data) = "code\n".data ∧
    markdown_to_plain_text ("```py\ncode\n```".data) ≠
      markdown_to_plain_text_fenceFirst ("```py\ncode\n```".data) := by decide

/-! ## Counting lemmas for the emphasis and inline-code rules -/

theorem stripHeadingsGo_skip :
    ∀ (l : List Char) (k : Nat), stripHeadingsGo k l = stripHeadingsGo 0 (l.drop k) := by
  intro l
  induction l with
  | nil => intro k; cases k <;> simp [stripHeadingsGo]
  | cons a rest ih =>
    intro k
    cases k with
    | zero => rw [List.drop_zero]
    | succ k =>
      rw [List.drop_succ_cons, ← ih k]
      simp only [stripHeadingsGo]

theorem replaceBoldGo_skip :
    ∀ (l : List Char) (k : Nat), replaceBoldGo k l = replaceBoldGo 0 (l.drop k) := by
  intro l
  induction l with
  | nil => intro k; cases k <;> simp [replaceBoldGo]
  | cons a rest ih =>
    intro k
    cases k with
    | zero => rw [List.drop_zero]
    | succ k =>
      rw [List.drop_succ_cons, ← ih k]
      simp only [replaceBoldGo]

theorem replaceDelimGo_skip (t : Char) :
    ∀ (l : List Char) (k : Nat), replaceDelimGo t k l = replaceDelimGo t 0 (l.drop k) := by
  intro l
  induction l with
  | nil => intro k; cases k <;> simp [replaceDelimGo]
  | cons a rest ih =>
    intro k
    cases k with
    | zero => rw [List.drop_zero]
    | succ k =>
      rw [List.drop_succ_cons, ← ih k]
      simp only [replaceDelimGo]

theorem splitAtChar_not_mem_mid (t : Char) :
    ∀ (l : List Char) (p : List Char × List Char),
      splitAtChar t l = some p → t ∉ p.1 := by
  intro l
  induction l with
  | nil => intro p h; simp [splitAtChar] at h
  | cons c rest ih =>
    intro p h
    simp only [splitAtChar] at h
    by_cases hc : c = t
    · rw [if_pos hc] at h
      injection h with h
      subst h
      simp
    · rw [if_neg hc] at h
      cases hs : splitAtChar t rest with
      | none => rw [hs] at h; simp at h
      | some q =>
        rw [hs] at h
        simp only [Option.map_some', Option.some.injEq] at h
        subst h
        intro hm
        rcases List.mem_cons.mp hm with h1 | h1
        · exact hc h1.symm
        · exact ih q hs h1

theorem splitAtChar_none (t : Char) :
    ∀ l : List Char, splitAtChar t l = none → t ∉ l := by
  intro l
  induction l with
  | nil => intro _; simp
  | cons c rest ih =>
    intro h
    simp only [splitAtChar] at h
    by_cases hc : c = t
    · rw [if_pos hc] at h
      simp at h
    · rw [if_neg hc] at h
      cases hs : splitAtChar t rest with
      | none =>
        intro hm
        rcases List.mem_cons.mp hm with h1 | h1
        · exact hc h1.symm
        · exact ih hs h1
      | some q => rw [hs] at h; simp at h

theorem drop_length_takeWhile (p : Char → Bool) (l : List Char) :
    l.drop (l.takeWhile p).length = l.dropWhile p := by
  have h := List.drop_left (l.takeWhile p) (l.dropWhile p)
  rw [List.takeWhile_append_dropWhile] at h
  exact h

theorem delim_match_decomp (t : Char) (rest : List Char) (p : List Char × List Char)
    (hs : splitAtChar t rest = some p) :
    rest = (p.1 ++ [t]) ++ p.2 ∧ rest.drop (p.1.length + 1) = p.2 := by
  have heq := splitAtChar_eq t rest p hs
  have hr : rest = (p.1 ++ [t]) ++ p.2 := by
    rw [← heq]
    simp
  refine ⟨hr, ?_⟩
  rw [hr]
  have hlen : (p.1 ++ [t]).length = p.1.length + 1 := by simp
  rw [← hlen, List.drop_left]

theorem bold_match_decomp (rest : List Char) (p : List Char × List Char)
    (hh : rest.head? = some '*') (hs : splitAtDoubleStar rest.tail = some p) :
    rest = '*' :: ((p.1 ++ ['*', '*']) ++ p.2) ∧ rest.drop (p.1.length + 3) = p.2 := by
  cases rest with
  | nil => simp at hh
  | cons r rs =>
    simp only [List.head?_cons, Option.some.injEq] at hh
    subst hh
    have heq := splitAtDoubleStar_eq rs p hs
    have hrs : rs = (p.1 ++ ['*', '*']) ++ p.2 := by
      rw [← heq]
      simp
    refine ⟨by rw [hrs], ?_⟩
    rw [hrs]
    have hlen : (p.1 ++ ['*', '*']).length = p.1.length + 2 := by simp
    rw [show p.1.length + 3 = (p.1.length + 2) + 1 by omega, List.drop_succ_cons,
      ← hlen, List.drop_left]

theorem count_stripHeadingsGo (c : Char) (hc1 : c ≠ '#') (hc2 : isPySpace c = false) :
    ∀ (n : Nat) (l : List Char), l.length ≤ n →
      List.count c (stripHeadingsGo 0 l) = List.count c l := by
  intro n
  induction n with
  | zero =>
    intro l hl
    have h0 : l = [] := List.eq_nil_of_length_eq_zero (by omega)
    subst h0
    rfl
  | succ n ih =>
    intro l hl
    cases l with
    | nil => rfl
    | cons a rest =>
      simp only [stripHeadingsGo]
      by_cases ha : a = '#'
      · rw [if_pos ha, stripHeadingsGo_skip]
        have f3 : rest.drop ((rest.takeWhile (fun x => x == '#')).length +
            ((rest.dropWhile (fun x => x == '#')).takeWhile isPySpace).length) =
            (rest.dropWhile (fun x => x == '#')).dropWhile isPySpace := by
          rw [← List.drop_drop, drop_length_takeWhile, drop_length_takeWhile]
        rw [f3]
        have hlen : ((rest.dropWhile (fun x => x == '#')).dropWhile isPySpace).length ≤ n := by
          have h1 := congrArg List.length f3
          rw [List.length_drop] at h1
          simp only [List.length_cons] at hl
          omega
        rw [ih _ hlen]
        have hnotw1 : c ∉ rest.takeWhile (fun x => x == '#') := by
          intro hm
          have := List.mem_takeWhile_imp hm
          rw [beq_iff_eq] at this
          exact hc1 this
        have hnotw2 : c ∉ (rest.dropWhile (fun x => x == '#')).takeWhile isPySpace := by
          intro hm
          have := List.mem_takeWhile_imp hm
          rw [hc2] at this
          cases this
        have e1 : List.count c rest =
            List.count c (rest.dropWhile (fun x => x == '#')) := by
          conv_lhs => rw [← List.takeWhile_append_dropWhile (fun x => x == '#') rest]
          rw [List.count_append, List.count_eq_zero.mpr hnotw1]
          omega
        have e2 : List.count c (rest.dropWhile (fun x => x == '#')) =
            List.count c ((rest.dropWhile (fun x => x == '#')).dropWhile isPySpace) := by
          conv_lhs => rw [← List.takeWhile_append_dropWhile isPySpace
            (rest.dropWhile (fun x => x == '#'))]
          rw [List.count_append, List.count_eq_zero.mpr hnotw2]
          omega
        have hac : (a == c) = false := by
          rw [ha]
          exact beq_eq_false_iff_ne.mpr (Ne.symm hc1)
        rw [List.count_cons, hac]
        simp only [Bool.false_eq_true, if_false]
        omega
      · rw [if_neg ha]
        simp only [List.length_cons] at hl
        rw [List.count_cons, List.count_cons, ih rest (by omega)]

theorem count_replaceBoldGo (c : Char) (hc : c ≠ '*') :
    ∀ (n : Nat) (l : List Char), l.length ≤ n →
      List.count c (replaceBoldGo 0 l) = List.count c l := by
  intro n
  induction n with
  | zero =>
    intro l hl
    have h0 : l = [] := List.eq_nil_of_length_eq_zero (by omega)
    subst h0
    rfl
  | succ n ih =>
    intro l hl
    cases l with
    | nil => rfl
    | cons a rest =>
      simp only [List.length_cons] at hl
      simp only [replaceBoldGo]
      by_cases ha : a = '*' ∧ rest.head? = some '*'
      · rw [if_pos ha]
        cases hs : splitAtDoubleStar rest.tail with
        | some p =>
          dsimp only
          obtain ⟨hrest, hdrop⟩ := bold_match_decomp rest p ha.2 hs
          rw [replaceBoldGo_skip, hdrop, List.count_append]
          have hstar : (('*' : Char) == c) = false :=
            beq_eq_false_iff_ne.mpr (Ne.symm hc)
          have hp2len : p.2.length ≤ n := by
            have h1 := congrArg List.length hrest
            simp only [List.length_cons, List.length_append] at h1
            omega
          rw [ih p.2 hp2len, List.count_cons, hrest, List.count_cons,
            List.count_append, List.count_append]
          have hac : (a == c) = false := by
            rw [ha.1]
            exact hstar
          rw [hac, hstar]
          simp only [Bool.false_eq_true, if_false, List.count_cons,
            List.count_nil, hstar]
          omega
        | none =>
          dsimp only
          rw [List.count_cons, List.count_cons, ih rest (by omega)]
      · rw [if_neg ha]
        rw [List.count_cons, List.count_cons, ih rest (by omega)]

theorem count_star_replaceBoldGo :
    ∀ (n : Nat) (l : List Char), l.length ≤ n →
      List.count '*' (replaceBoldGo 0 l) % 2 = List.count '*' l % 2 := by
  intro n
  induction n with
  | zero =>
    intro l hl
    have h0 : l = [] := List.eq_nil_of_length_eq_zero (by omega)
    subst h0
    rfl
  | succ n ih =>
    intro l hl
    cases l with
    | nil => rfl
    | cons a rest =>
      simp only [List.length_cons] at hl
      simp only [replaceBoldGo]
      by_cases ha : a = '*' ∧ rest.head? = some '*'
      · rw [if_pos ha]
        cases hs : splitAtDoubleStar rest.tail with
        | some p =>
          dsimp only
          obtain ⟨hrest, hdrop⟩ := bold_match_decomp rest p ha.2 hs
          rw [replaceBoldGo_skip, hdrop, List.count_append]
          have hp2len : p.2.length ≤ n := by
            have h1 := congrArg List.length hrest
            simp only [List.length_cons, List.length_append] at h1
            omega
          have hih := ih p.2 hp2len
          rw [List.count_cons, hrest, List.count_cons, List.count_append,
            List.count_append, ha.1]
          simp only [List.count_cons, List.count_nil, beq_self_eq_true, if_pos]
          omega
        | none =>
          dsimp only
          have hih := ih rest (by omega)
          rw [List.count_cons, List.count_cons]
          omega
      · rw [if_neg ha]
        have hih := ih rest (by omega)
        rw [List.count_cons, List.count_cons]
        omega

theorem count_replaceDelimGo (t c : Char) (hc : c ≠ t) :
    ∀ (n : Nat) (l : List Char), l.length ≤ n →
      List.count c (replaceDelimGo t 0 l) = List.count c l := by
  intro n
  induction n with
  | zero =>
    intro l hl
    have h0 : l = [] := List.eq_nil_of_length_eq_zero (by omega)
    subst h0
    rfl
  | succ n ih =>
    intro l hl
    cases l with
    | nil => rfl
    | cons a rest =>
      simp only [List.length_cons] at hl
      simp only [replaceDelimGo]
      by_cases ha : a = t
      · rw [if_pos ha]
        cases hs : splitAtChar t rest with
        | some p =>
          dsimp only
          obtain ⟨hrest, hdrop⟩ := delim_match_decomp t rest p hs
          rw [replaceDelimGo_skip, hdrop, List.count_append]
          have ht : (t == c) = false := beq_eq_false_iff_ne.mpr (Ne.symm hc)
          have hp2len : p.2.length ≤ n := by
            have h1 := congrArg List.length hrest
            simp only [List.length_append] at h1
            omega
          rw [ih p.2 hp2len, List.count_cons, hrest, List.count_append,
            List.count_append]
          have hac : (a == c) = false := by
            rw [ha]
            exact ht
          rw [hac]
          simp only [Bool.false_eq_true, if_false, List.count_cons,
            List.count_nil, ht]
          omega
        | none =>
          dsimp only
          rw [List.count_cons, List.count_cons, ih rest (by omega)]
      · rw [if_neg ha]
        rw [List.count_cons, List.count_cons, ih rest (by omega)]

theorem not_mem_replaceDelimGo_even (t : Char) :
    ∀ (n : Nat) (l : List Char), l.length ≤ n → List.count t l % 2 = 0 →
      t ∉ replaceDelimGo t 0 l := by
  intro n
  induction n with
  | zero =>
    intro l hl _
    have h0 : l = [] := List.eq_nil_of_length_eq_zero (by omega)
    subst h0
    simp [replaceDelimGo]
  | succ n ih =>
    intro l hl heven
    cases l with
    | nil => simp [replaceDelimGo]
    | cons a rest =>
      simp only [List.length_cons] at hl
      simp only [replaceDelimGo]
      by_cases ha : a = t
      · rw [if_pos ha]
        cases hs : splitAtChar t rest with
        | some p =>
          dsimp only
          obtain ⟨hrest, hdrop⟩ := delim_match_decomp t rest p hs
          rw [replaceDelimGo_skip, hdrop]
          have hmid : t ∉ p.1 := splitAtChar_not_mem_mid t rest p hs
          have hp2len : p.2.length ≤ n := by
            have h1 := congrArg List.length hrest
            simp only [List.length_append] at h1
            omega
          have hp2even : List.count t p.2 % 2 = 0 := by
            rw [List.count_cons, hrest, List.count_append, List.count_append,
              List.count_eq_zero.mpr hmid] at heven
            simp only [ha, beq_self_eq_true, if_pos, List.count_cons,
              List.count_nil, beq_self_eq_true] at heven
            omega
          intro hm
          rcases List.mem_append.mp hm with h1 | h1
          · exact hmid h1
          · exact ih p.2 hp2len hp2even h1
        | none =>
          exfalso
          have hnone : t ∉ rest := splitAtChar_none t rest hs
          rw [List.count_cons, List.count_eq_zero.mpr hnone, ha] at heven
          simp at heven
      · rw [if_neg ha]
        intro hm
        rcases List.mem_cons.mp hm with h1 | h1
        · exact ha h1.symm
        · have hresteven : List.count t rest % 2 = 0 := by
            rw [List.count_cons] at heven
            have hat : (a == t) = false := beq_eq_false_iff_ne.mpr ha
            rw [hat] at heven
            simpa using heven
          exact ih rest (by omega) hresteven h1

theorem not_mem_after_fence_stages (x : Char) (hx1 : x ≠ '•') (hx2 : x ≠ ' ')
    (l : List Char) (h : x ∉ l) :
    x ∉ subOrderedGo 0 true (subBulletGo '*' 0 true (subBulletGo '-' 0 true
      (replaceLinksGo 0 (removeImagesGo 0 (replaceFenceGo 0 l))))) := by
  intro hm
  have h1 := mem_subOrderedGo x _ _ _ hm
  rcases mem_subBulletGo '*' x _ _ _ h1 with h2 | h2 | h2
  · rcases mem_subBulletGo '-' x _ _ _ h2 with h3 | h3 | h3
    · exact h (mem_replaceFenceGo x _ _
        (mem_removeImagesGo x _ _ (mem_replaceLinksGo x _ _ h3)))
    · exact hx1 h3
    · exact hx2 h3
  · exact hx1 h2
  · exact hx2 h2

/-- C3 (amended): the plain-text rendering strips the structural markers that
occur as matched syntax — for every input `T`, the output contains no `#`
character (the heading rule deletes all of them and no later rule
reintroduces one); if `T`'s asterisks occur in matched pairs (even count, as
they do when every `*` belongs to bold or italic syntax), no `*` survives;
and if `T`'s backquotes occur in matched pairs (even count, as they do when
every backquote belongs to inline code or balanced fences), no backquote
survives.  This holds although the rule order is the reverse of the claimed
one: generic inline-backquote stripping runs *before* fenced-code
stripping, so fence boundaries can be corrupted (see the counterexample,
where a fence info string leaks into the output). -/
theorem C3_structural_markers (md_text : List Char) :
    '#' ∉ markdown_to_plain_text md_text ∧
    (List.count '*' md_text % 2 = 0 → '*' ∉ markdown_to_plain_text md_text) ∧
    (List.count btick md_text % 2 = 0 → btick ∉ markdown_to_plain_text md_text) := by
  unfold markdown_to_plain_text
  refine ⟨?_, ?_, ?_⟩
  · apply not_mem_after_fence_stages '#' (by decide) (by decide)
    intro hm
    exact hash_not_mem_stripHeadingsGo md_text 0
      (mem_replaceBoldGo '#' _ _
        (mem_replaceDelimGo '*' '#' _ _ (mem_replaceDelimGo btick '#' _ _ hm)))
  · intro heven
    apply not_mem_after_fence_stages '*' (by decide) (by decide)
    have h1 : List.count '*' (stripHeadingsGo 0 md_text) = List.count '*' md_text :=
      count_stripHeadingsGo '*' (by decide) (by decide) md_text.length md_text le_rfl
    have h2 : List.count '*' (replaceBoldGo 0 (stripHeadingsGo 0 md_text)) % 2 = 0 := by
      have hp := count_star_replaceBoldGo (stripHeadingsGo 0 md_text).length
        (stripHeadingsGo 0 md_text) le_rfl
      omega
    have h3 : '*' ∉ replaceDelimGo '*' 0 (replaceBoldGo 0 (stripHeadingsGo 0 md_text)) :=
      not_mem_replaceDelimGo_even '*' _ _ le_rfl h2
    intro hm
    exact h3 (mem_replaceDelimGo btick '*' _ _ hm)
  · intro heven
    apply not_mem_after_fence_stages btick (by decide) (by decide)
    have h1 : List.count btick (stripHeadingsGo 0 md_text) = List.count btick md_text :=
      count_stripHeadingsGo btick (by decide) (by decide) md_text.length md_text le_rfl
    have h2 : List.count btick (replaceBoldGo 0 (stripHeadingsGo 0 md_text)) =
        List.count btick (stripHeadingsGo 0 md_text) :=
      count_replaceBoldGo btick (by decide) _ _ le_rfl
    have h3 : List.count btick
        (replaceDelimGo '*' 0 (replaceBoldGo 0 (stripHeadingsGo 0 md_text))) =
        List.count btick (replaceBoldGo 0 (stripHeadingsGo 0 md_text)) :=
      count_replaceDelimGo '*' btick (by decide) _ _ le_rfl
    exact not_mem_replaceDelimGo_even btick _ _ le_rfl (by omega)

/-- C3 witness: an answer using matched bold and inline-code syntax — both
counts are even, so neither an asterisk nor a backquote survives. -/
theorem C3_structural_markers_witness :
    List.count '*' ("**bold** and `code`".data) % 2 = 0 ∧
    List.count btick ("**bold** and `code`".data) % 2 = 0 ∧
    '*' ∉ markdown_to_plain_text ("**bold** and `code`".data) ∧
    btick ∉ markdown_to_plain_text ("**bold** and `code`".data) :=
  ⟨by decide, by decide,
   (C3_structural_markers ("**bold** and `code`".data)).2.1 (by decide),
   (C3_structural_markers ("**bold** and `code`".data)).2.2 (by decide)⟩
